import Mathlib

/-!
Verification of the raw-pointer singly linked list in
`src/Linked-List/src/unsafe_list.rs` (`UnsafeList<T>`).

The Rust code manipulates heap nodes through `NonNull` raw pointers.  We give
a shallow embedding: addresses are natural numbers, the heap is a partial map
from addresses to nodes together with a monotone allocation counter `fresh`
(fresh addresses are never reused, as with a real allocator the program never
frees-then-reallocates the same `NonNull` during one operation).  Every public
operation of the Rust type becomes a state-passing Lean function translated
line by line from the source.  A dereference of a dangling pointer is
undefined behaviour in the source; in the embedding those branches (marked
`UB` in comments) return without touching the heap.  They are unreachable
from well-formed states, which is part of what we prove.
-/

namespace RustList

/-- `Node<T>`: `value: T`, `next: Option<NonNull<Node<T>>>`. -/
structure Node (T : Type) where
  value : T
  next : Option Nat
  deriving Repr, DecidableEq

/-- The global heap: contents of every live allocation, plus the next
address the allocator will hand out. -/
structure Heap (T : Type) where
  mem : Nat → Option (Node T)
  fresh : Nat

/-- Heap with no allocations. -/
def Heap.empty (T : Type) : Heap T := ⟨fun _ => none, 0⟩

/-- Overwrite the node stored at `p` (the Rust `(*p.as_ptr()) = ...` writes). -/
def Heap.set (h : Heap T) (p : Nat) (n : Node T) : Heap T :=
  ⟨fun q => if q = p then some n else h.mem q, h.fresh⟩

/-- Release the node at `p` (`Box::from_raw` followed by drop). -/
def Heap.free (h : Heap T) (p : Nat) : Heap T :=
  ⟨fun q => if q = p then none else h.mem q, h.fresh⟩

/-- `Box::new` + `Box::into_raw`: place `n` at a fresh address. -/
def Heap.alloc (h : Heap T) (n : Node T) : Nat × Heap T :=
  (h.fresh, ⟨fun q => if q = h.fresh then some n else h.mem q, h.fresh + 1⟩)

/-- The three fields of `UnsafeList<T>` (the `PhantomData` marker has no
runtime content). -/
structure UnsafeList (T : Type) where
  head : Option Nat
  tail : Option Nat
  len : Nat
  deriving Repr, DecidableEq

namespace UnsafeList

/-- `UnsafeList::new`. -/
def new (T : Type) : UnsafeList T := ⟨none, none, 0⟩

/-- `UnsafeList::is_empty`: `self.head.is_none()`. -/
def isEmpty (l : UnsafeList T) : Bool := l.head.isNone

/-- `UnsafeList::len`. -/
def lenFn (l : UnsafeList T) : Nat := l.len

/-- `UnsafeList::push_front`. -/
def pushFront (l : UnsafeList T) (h : Heap T) (value : T) :
    UnsafeList T × Heap T :=
  let (nodePtr, h1) := h.alloc ⟨value, l.head⟩
  let tail1 := if l.head.isNone then some nodePtr else l.tail
  (⟨some nodePtr, tail1, l.len + 1⟩, h1)

/-- `UnsafeList::push_back`. -/
def pushBack (l : UnsafeList T) (h : Heap T) (value : T) :
    UnsafeList T × Heap T :=
  let (nodePtr, h1) := h.alloc ⟨value, none⟩
  match l.tail with
  | some t =>
    -- `(*tail.as_ptr()).next = Some(node_ptr)`
    let h2 := match h1.mem t with
      | some nd => h1.set t ⟨nd.value, some nodePtr⟩
      | none => h1  -- UB: dangling tail pointer
    (⟨l.head, some nodePtr, l.len + 1⟩, h2)
  | none =>
    (⟨some nodePtr, some nodePtr, l.len + 1⟩, h1)

/-- `UnsafeList::pop_front`. -/
def popFront (l : UnsafeList T) (h : Heap T) :
    Option T × UnsafeList T × Heap T :=
  match l.head with
  | none => (none, l, h)
  | some headPtr =>
    match h.mem headPtr with
    | none => (none, l, h)  -- UB: dangling head pointer
    | some nd =>
      let h1 := h.free headPtr  -- `Box::from_raw` reclaims the node
      let head1 := nd.next
      let tail1 := if head1.isNone then none else l.tail
      (some nd.value, ⟨head1, tail1, l.len - 1⟩, h1)

/-- `UnsafeList::peek_front`: the value behind `self.head`, if any. -/
def peekFront (l : UnsafeList T) (h : Heap T) : Option T :=
  l.head.bind fun p => (h.mem p).map Node.value

/-- `UnsafeList::peek_front_mut`: same access path as `peek_front`; the
mutable borrow is modelled by the value it designates. -/
def peekFrontMut (l : UnsafeList T) (h : Heap T) : Option T :=
  l.head.bind fun p => (h.mem p).map Node.value

/-- The loop of `UnsafeList::reverse`, with explicit fuel.  In the source the
loop runs while `current` is non-null; from a well-formed state it performs
exactly `len` iterations, so any fuel `≥ len` computes the same heap. -/
def reverseLoop : Nat → Heap T → Option Nat → Option Nat → Heap T
  | 0, h, _, _ => h
  | fuel + 1, h, prev, current =>
    match current with
    | none => h
    | some c =>
      match h.mem c with
      | none => h  -- UB: dangling current pointer
      | some nd =>
        reverseLoop fuel (h.set c ⟨nd.value, prev⟩) (some c) nd.next

/-- `UnsafeList::reverse`. -/
def reverse (l : UnsafeList T) (h : Heap T) : UnsafeList T × Heap T :=
  let newHead := l.tail
  let h1 := reverseLoop (l.len + 1) h none l.head
  (⟨newHead, l.head, l.len⟩, h1)

/-- The predecessor walk of `UnsafeList::remove`; the counter is the number
of iterations left (`index - i` in the source).  Returns the final
`(prev, current)` pair. -/
def removeWalk : Nat → Heap T → Option Nat → Option Nat →
    Option Nat × Option Nat
  | 0, _, prev, current => (prev, current)
  | n + 1, h, prev, current =>
    match current with
    | none => (prev, current)  -- loop guard `current.is_some()` fails
    | some c =>
      -- `prev = current; current = current.and_then(|c| (*c.as_ptr()).next)`
      removeWalk n h (some c) ((h.mem c).bind Node.next)

/-- `UnsafeList::remove`. -/
def remove (l : UnsafeList T) (h : Heap T) (index : Nat) :
    Option T × UnsafeList T × Heap T :=
  if index ≥ l.len then (none, l, h)
  else if index = 0 then popFront l h
  else
    match removeWalk index h none l.head with
    | (some prevPtr, some currPtr) =>
      match h.mem currPtr, h.mem prevPtr with
      | some curr, some prevNd =>
        -- `(*prev_ptr.as_ptr()).next = curr.next`, then the `Box` drops
        let h1 := (h.set prevPtr ⟨prevNd.value, curr.next⟩).free currPtr
        let tail1 := if curr.next.isNone then some prevPtr else l.tail
        (some curr.value, ⟨l.head, tail1, l.len - 1⟩, h1)
      | _, _ => (none, l, h)  -- UB: dangling prev/current pointer
    | _ => (none, l, h)  -- fallback `else { None }` after the walk

/-- `impl From<Vec<T>>`: `new()` then `push_back` each element in order. -/
def fromVec (v : List T) (h : Heap T) : UnsafeList T × Heap T :=
  v.foldl (fun acc x => pushBack acc.1 acc.2 x) (new T, h)

/-- `Iter::next` iterated to exhaustion: the read-only iteration sequence,
with fuel (the source walks until `current` is null). -/
def iterFuel : Nat → Heap T → Option Nat → List T
  | 0, _, _ => []
  | fuel + 1, h, current =>
    match current with
    | none => []
    | some p =>
      match h.mem p with
      | none => []  -- UB: dangling pointer
      | some nd => nd.value :: iterFuel fuel h nd.next

/-- The full read-only iteration of a list (`l.iter().collect()`); from a
well-formed state the walk visits exactly `len` nodes. -/
def iterList (l : UnsafeList T) (h : Heap T) : List T :=
  iterFuel l.len h l.head

/-- `IntoIter::next` (which is `pop_front`) iterated to exhaustion, with
fuel: the consuming iteration sequence. -/
def intoIterFuel : Nat → UnsafeList T → Heap T → List T
  | 0, _, _ => []
  | fuel + 1, l, h =>
    match popFront l h with
    | (none, _, _) => []
    | (some x, l1, h1) => x :: intoIterFuel fuel l1 h1

/-- The loop of `UnsafeList::clear` (also the `Drop` impl): `pop_front`
until it yields `None`, with fuel. -/
def clearLoop : Nat → UnsafeList T → Heap T → UnsafeList T × Heap T
  | 0, l, h => (l, h)
  | fuel + 1, l, h =>
    match popFront l h with
    | (none, l1, h1) => (l1, h1)
    | (some _, l1, h1) => clearLoop fuel l1 h1

/-- `UnsafeList::clear` / `Drop::drop`: from a well-formed state `len`
pops empty the list, so fuel `len + 1` reproduces the unbounded loop. -/
def clear (l : UnsafeList T) (h : Heap T) : UnsafeList T × Heap T :=
  clearLoop (l.len + 1) l h

/-- `UnsafeList::append`.  Returns the new `self`, the drained `other`
(whose fields the source resets so its drop releases nothing), and the
heap. -/
def append (l other : UnsafeList T) (h : Heap T) :
    UnsafeList T × UnsafeList T × Heap T :=
  if other.isEmpty then (l, other, h)
  else if l.isEmpty then
    -- `mem::swap(self, &mut other); return;` — `other` now holds the old
    -- (empty) `self` and is dropped by the caller.
    (other, l, h)
  else
    match l.tail with
    | some t =>
      let h1 := match h.mem t with
        | some nd => h.set t ⟨nd.value, other.head⟩
        | none => h  -- UB: dangling tail pointer
      (⟨l.head, other.tail, l.len + other.len⟩, ⟨none, none, 0⟩, h1)
    | none =>
      -- `if let Some(tail)` fails (impossible in a well-formed non-empty
      -- list); the source still clears `other`'s fields.
      (l, ⟨none, none, 0⟩, h)

end UnsafeList

/-- A client-visible stack-like operation, for reasoning about arbitrary
sequences of `push_front` / `push_back` / `pop_front`. -/
inductive SeqOp (T : Type) where
  | pushF : T → SeqOp T
  | pushB : T → SeqOp T
  | popF : SeqOp T

/-- Run a sequence of operations, counting elements pushed and successful
pops: state is `(list, heap, pushed, popped)`. -/
def runOps {T : Type} :
    List (SeqOp T) → UnsafeList T × Heap T × Nat × Nat →
      UnsafeList T × Heap T × Nat × Nat
  | [], s => s
  | op :: rest, (l, h, np, nq) =>
    match op with
    | .pushF x =>
      runOps rest ((l.pushFront h x).1, (l.pushFront h x).2, np + 1, nq)
    | .pushB x =>
      runOps rest ((l.pushBack h x).1, (l.pushBack h x).2, np + 1, nq)
    | .popF =>
      match l.popFront h with
      | (none, l1, h1) => runOps rest (l1, h1, np, nq)
      | (some _, l1, h1) => runOps rest (l1, h1, np, nq + 1)

/-! ## Pointer chains -/

variable {T : Type}

/-- Pointer to the front of a path: the head of `ps`, or `r` when `ps` is
empty. -/
def startPtr (ps : List Nat) (r : Option Nat) : Option Nat :=
  match ps with
  | [] => r
  | p :: _ => some p

/-- The values stored at a list of addresses (all present along a chain). -/
def chainValues (h : Heap T) (ps : List Nat) : List T :=
  ps.filterMap fun p => (h.mem p).map Node.value

/-- `ChainSeg h o ps r`: starting from pointer `o` and following `next`
fields, one passes exactly through the live nodes at addresses `ps` and then
reaches the pointer `r`. -/
inductive ChainSeg (h : Heap T) : Option Nat → List Nat → Option Nat → Prop
  | nil (o : Option Nat) : ChainSeg h o [] o
  | cons {p : Nat} {nd : Node T} {ps : List Nat} {r : Option Nat} :
      h.mem p = some nd → ChainSeg h nd.next ps r →
      ChainSeg h (some p) (p :: ps) r

/-- `WF l h ps`: the `UnsafeList` fields are consistent with the heap, with
`ps` the address path from `head`: the chain from `head` passes exactly
through `ps` and ends at the null pointer, `len` counts the path, `tail` is
its last address, and every address on the path was allocated (is below the
allocation counter). -/
structure WF (l : UnsafeList T) (h : Heap T) (ps : List Nat) : Prop where
  chain : ChainSeg h l.head ps none
  lenEq : ps.length = l.len
  tailEq : l.tail = ps.getLast?
  bounded : ∀ p ∈ ps, p < h.fresh

/-- What one mutating operation guarantees: the result is well formed on the
path `ps2`, the heap is unchanged outside the old path and the newly
allocated addresses, the allocation counter never decreases, and the new
path uses only old-path or newly allocated addresses. -/
structure OpOk (h : Heap T) (ps : List Nat) (l2 : UnsafeList T)
    (h2 : Heap T) (ps2 : List Nat) : Prop where
  wf : WF l2 h2 ps2
  frame : ∀ q, q ∉ ps → q < h.fresh → h2.mem q = h.mem q
  mono : h.fresh ≤ h2.fresh
  sub : ∀ p ∈ ps2, p ∈ ps ∨ h.fresh ≤ p

/-! ## Reachable program states

A program state is the collection of `UnsafeList` values alive at some
moment, together with the one global heap they share.  `Step` is one public
mutating operation applied to one (or, for `append`, two) of the lists;
`Reach` is any finite sequence of such operations starting from no lists and
an empty heap. -/

inductive Step : List (UnsafeList T) → Heap T → List (UnsafeList T) →
    Heap T → Prop
  | newOp {ls : List (UnsafeList T)} {h : Heap T} :
      Step ls h (UnsafeList.new T :: ls) h
  | fromVecOp {ls : List (UnsafeList T)} {h : Heap T} (v : List T) :
      Step ls h ((UnsafeList.fromVec v h).1 :: ls) (UnsafeList.fromVec v h).2
  | pushFrontOp {ls : List (UnsafeList T)} {h : Heap T} (i : Nat) (x : T)
      (li : UnsafeList T) (hi : ls[i]? = some li) :
      Step ls h (ls.set i (li.pushFront h x).1) (li.pushFront h x).2
  | pushBackOp {ls : List (UnsafeList T)} {h : Heap T} (i : Nat) (x : T)
      (li : UnsafeList T) (hi : ls[i]? = some li) :
      Step ls h (ls.set i (li.pushBack h x).1) (li.pushBack h x).2
  | popFrontOp {ls : List (UnsafeList T)} {h : Heap T} (i : Nat)
      (li : UnsafeList T) (hi : ls[i]? = some li) :
      Step ls h (ls.set i (li.popFront h).2.1) (li.popFront h).2.2
  | reverseOp {ls : List (UnsafeList T)} {h : Heap T} (i : Nat)
      (li : UnsafeList T) (hi : ls[i]? = some li) :
      Step ls h (ls.set i (li.reverse h).1) (li.reverse h).2
  | removeOp {ls : List (UnsafeList T)} {h : Heap T} (i idx : Nat)
      (li : UnsafeList T) (hi : ls[i]? = some li) :
      Step ls h (ls.set i (li.remove h idx).2.1) (li.remove h idx).2.2
  | appendOp {ls : List (UnsafeList T)} {h : Heap T} (i j : Nat)
      (li lj : UnsafeList T) (hne : i ≠ j) (hi : ls[i]? = some li)
      (hj : ls[j]? = some lj) :
      Step ls h ((ls.set i (li.append lj h).1).set j (li.append lj h).2.1)
        (li.append lj h).2.2

inductive Reach : List (UnsafeList T) → Heap T → Prop
  | init : Reach [] (Heap.empty T)
  | step {ls : List (UnsafeList T)} {h : Heap T} {ls2 : List (UnsafeList T)}
      {h2 : Heap T} : Reach ls h → Step ls h ls2 h2 → Reach ls2 h2

/-- Pairwise disjointness of the address paths of distinct lists. -/
def DisjointPaths (pss : List (List Nat)) : Prop :=
  ∀ (i j : Nat) (a b : List Nat), i ≠ j → pss[i]? = some a →
    pss[j]? = some b → ∀ p ∈ a, p ∉ b

/-- The global invariant: every live list is well formed on its own address
path, and the paths of distinct lists never share a node. -/
def Inv (ls : List (UnsafeList T)) (h : Heap T) : Prop :=
  ∃ pss : List (List Nat), pss.length = ls.length ∧
    (∀ (i : Nat) (li : UnsafeList T) (psi : List Nat),
      ls[i]? = some li → pss[i]? = some psi → WF li h psi) ∧
    DisjointPaths pss

theorem ChainSeg.start {h : Heap T} {o : Option Nat} {ps : List Nat}
    {r : Option Nat} (hc : ChainSeg h o ps r) : o = startPtr ps r := by
  cases hc <;> rfl

theorem ChainSeg.trans {h : Heap T} {o m r : Option Nat} {ps qs : List Nat}
    (h1 : ChainSeg h o ps m) (h2 : ChainSeg h m qs r) :
    ChainSeg h o (ps ++ qs) r := by
  induction h1 with
  | nil => exact h2
  | cons hm _ ih => exact ChainSeg.cons hm (ih h2)

theorem chainSeg_split {h : Heap T} {o r : Option Nat} {ps qs : List Nat}
    (hc : ChainSeg h o (ps ++ qs) r) :
    ∃ m, ChainSeg h o ps m ∧ ChainSeg h m qs r := by
  induction ps generalizing o with
  | nil => exact ⟨o, ChainSeg.nil o, hc⟩
  | cons p ps ih =>
    cases hc with
    | cons hm hrest =>
      obtain ⟨m, s1, s2⟩ := ih hrest
      exact ⟨m, ChainSeg.cons hm s1, s2⟩

theorem ChainSeg.frame {h h2 : Heap T} {o r : Option Nat} {ps : List Nat}
    (hc : ChainSeg h o ps r) (hag : ∀ q ∈ ps, h2.mem q = h.mem q) :
    ChainSeg h2 o ps r := by
  induction hc with
  | nil o => exact ChainSeg.nil o
  | cons hm _ ih =>
    refine ChainSeg.cons ?_ (ih fun q hq => hag q (List.mem_cons_of_mem _ hq))
    rw [hag _ (List.mem_cons_self _ _)]
    exact hm

theorem chain_unique {h : Heap T} :
    ∀ {ps qs : List Nat} {o : Option Nat},
      ChainSeg h o ps none → ChainSeg h o qs none → ps = qs := by
  intro ps
  induction ps with
  | nil =>
    intro qs o h1 h2
    cases h1
    cases h2
    rfl
  | cons p ps ih =>
    intro qs o h1 h2
    cases h1 with
    | cons hm hrest =>
      cases h2 with
      | cons hm2 hrest2 =>
        have hnd := Option.some.inj (hm ▸ hm2)
        rw [ih hrest (hnd ▸ hrest2)]

theorem chain_suffix {h : Heap T} {o : Option Nat} {xs ys : List Nat}
    {p : Nat} (hc : ChainSeg h o (xs ++ p :: ys) none) :
    ChainSeg h (some p) (p :: ys) none := by
  obtain ⟨m, _, h2⟩ := chainSeg_split hc
  have hs := h2.start
  simp only [startPtr] at hs
  exact hs ▸ h2

theorem chain_nodup {h : Heap T} {o : Option Nat} {ps : List Nat}
    (hc : ChainSeg h o ps none) : ps.Nodup := by
  induction ps generalizing o with
  | nil => exact List.nodup_nil
  | cons p ps ih =>
    cases hc with
    | cons hm hrest =>
      refine List.Nodup.cons ?_ (ih hrest)
      intro hmem
      obtain ⟨xs, ys, rfl⟩ := List.append_of_mem hmem
      have hsuf := chain_suffix hrest
      have hfull : ChainSeg h (some p) (p :: (xs ++ p :: ys)) none :=
        ChainSeg.cons hm hrest
      have := chain_unique hsuf hfull
      have hlen := congrArg List.length this
      simp at hlen
      omega

theorem chain_getLast {h : Heap T} {o : Option Nat} {ps : List Nat} {t : Nat}
    (hc : ChainSeg h o ps none) (hl : ps.getLast? = some t) :
    ∃ nd : Node T, h.mem t = some nd ∧ nd.next = none := by
  induction ps generalizing o with
  | nil => simp at hl
  | cons p ps ih =>
    cases hc with
    | cons hm hrest =>
      cases ps with
      | nil =>
        simp at hl
        exact ⟨_, hl ▸ hm, hrest.start⟩
      | cons q qs =>
        rw [List.getLast?_cons_cons] at hl
        exact ih hrest hl

theorem chainValues_congr {h h2 : Heap T} {ps : List Nat}
    (hag : ∀ q ∈ ps,
      (h2.mem q).map Node.value = (h.mem q).map Node.value) :
    chainValues h2 ps = chainValues h ps := by
  unfold chainValues
  induction ps with
  | nil => rfl
  | cons p ps ih =>
    simp only [List.filterMap_cons, hag p (List.mem_cons_self _ _)]
    rw [ih fun q hq => hag q (List.mem_cons_of_mem _ hq)]

theorem chainValues_frame {h h2 : Heap T} {ps : List Nat}
    (hag : ∀ q ∈ ps, h2.mem q = h.mem q) :
    chainValues h2 ps = chainValues h ps :=
  chainValues_congr fun q hq => by rw [hag q hq]

theorem chainValues_cons {h : Heap T} {p : Nat} {nd : Node T} {ps : List Nat}
    (hm : h.mem p = some nd) :
    chainValues h (p :: ps) = nd.value :: chainValues h ps := by
  simp [chainValues, List.filterMap_cons, hm]

theorem chainValues_append {h : Heap T} {xs ys : List Nat} :
    chainValues h (xs ++ ys) = chainValues h xs ++ chainValues h ys := by
  simp [chainValues, List.filterMap_append]

theorem chain_values_length {h : Heap T} {o r : Option Nat} {ps : List Nat}
    (hc : ChainSeg h o ps r) : (chainValues h ps).length = ps.length := by
  induction hc with
  | nil => rfl
  | cons hm _ ih => rw [chainValues_cons hm]; simp [ih]

theorem iter_chain {h : Heap T} :
    ∀ {ps : List Nat} {o : Option Nat}, ChainSeg h o ps none →
      ∀ fuel, ps.length ≤ fuel →
        UnsafeList.iterFuel fuel h o = chainValues h ps := by
  intro ps
  induction ps with
  | nil =>
    intro o hc fuel _
    cases hc
    cases fuel <;> rfl
  | cons p ps ih =>
    intro o hc fuel hfuel
    cases hc with
    | cons hm hrest =>
      cases fuel with
      | zero => simp at hfuel
      | succ f =>
        rw [UnsafeList.iterFuel]
        simp only [hm]
        rw [ih hrest f (by simpa using hfuel), chainValues_cons hm]

theorem getLast?_some_append {α : Type} :
    ∀ {l : List α} {a : α}, l.getLast? = some a → ∃ s, l = s ++ [a]
  | [], a, hl => by simp at hl
  | [x], a, hl => by
    simp at hl
    exact ⟨[], by simp [hl]⟩
  | x :: y :: ys, a, hl => by
    rw [List.getLast?_cons_cons] at hl
    obtain ⟨s, hs⟩ := getLast?_some_append hl
    exact ⟨x :: s, by simp [hs]⟩

/-! ## The representation invariant -/

theorem WF.headEq {l : UnsafeList T} {h : Heap T} {ps : List Nat}
    (w : WF l h ps) : l.head = startPtr ps none := w.chain.start

theorem WF.frameHeap {l : UnsafeList T} {h h2 : Heap T} {ps : List Nat}
    (w : WF l h ps) (hag : ∀ q ∈ ps, h2.mem q = h.mem q)
    (hf : h.fresh ≤ h2.fresh) : WF l h2 ps :=
  ⟨w.chain.frame hag, w.lenEq, w.tailEq,
    fun p hp => lt_of_lt_of_le (w.bounded p hp) hf⟩

theorem WF.nodup {l : UnsafeList T} {h : Heap T} {ps : List Nat}
    (w : WF l h ps) : ps.Nodup := chain_nodup w.chain

/-- A list with an empty path is exactly the freshly created list. -/
theorem WF.eq_new {l : UnsafeList T} {h : Heap T} (w : WF l h []) :
    l = UnsafeList.new T := by
  cases l
  cases w.chain
  have ht := w.tailEq
  have hl := w.lenEq
  simp_all [UnsafeList.new]

theorem new_wf (h : Heap T) : WF (UnsafeList.new T) h [] :=
  ⟨ChainSeg.nil none, rfl, rfl, by simp⟩

/-! ## `push_front` -/

theorem pushFront_ok {l : UnsafeList T} {h : Heap T} {ps : List Nat}
    (w : WF l h ps) (x : T) :
    OpOk h ps (l.pushFront h x).1 (l.pushFront h x).2 (h.fresh :: ps) ∧
      chainValues (l.pushFront h x).2 (h.fresh :: ps) =
        x :: chainValues h ps := by
  have hoff : ∀ q, q ≠ h.fresh → (l.pushFront h x).2.mem q = h.mem q := by
    intro q hq
    show (if q = h.fresh then some ⟨x, l.head⟩ else h.mem q) = h.mem q
    rw [if_neg hq]
  have hag : ∀ q ∈ ps, (l.pushFront h x).2.mem q = h.mem q := by
    intro q hq
    have hb := w.bounded q hq
    exact hoff q (by omega)
  have hmemf : (l.pushFront h x).2.mem h.fresh = some ⟨x, l.head⟩ := by
    show (if h.fresh = h.fresh then some ⟨x, l.head⟩ else h.mem h.fresh) = _
    rw [if_pos rfl]
  have hchain : ChainSeg (l.pushFront h x).2 ((l.pushFront h x).1).head
      (h.fresh :: ps) none := by
    show ChainSeg _ (some h.fresh) _ _
    exact ChainSeg.cons hmemf (w.chain.frame hag)
  have hfr : (l.pushFront h x).2.fresh = h.fresh + 1 := rfl
  refine ⟨⟨⟨hchain, ?_, ?_, ?_⟩, fun q _ hq => hoff q (by omega), ?_, ?_⟩, ?_⟩
  · show ps.length + 1 = l.len + 1
    rw [w.lenEq]
  · show (if l.head.isNone then some h.fresh else l.tail) = _
    cases hh : l.head with
    | none =>
      have hs := w.headEq
      rw [hh] at hs
      cases ps with
      | nil => rfl
      | cons p ps => simp [startPtr] at hs
    | some hp =>
      have hs := w.headEq
      rw [hh] at hs
      cases ps with
      | nil => simp [startPtr] at hs
      | cons p ps =>
        simp only [Option.isNone_some, Bool.false_eq_true, if_false]
        rw [w.tailEq, List.getLast?_cons_cons]
  · intro p hp
    rw [hfr]
    rcases List.mem_cons.mp hp with rfl | hp
    · omega
    · have := w.bounded p hp
      omega
  · rw [hfr]; omega
  · intro p hp
    rcases List.mem_cons.mp hp with rfl | hp
    · exact Or.inr le_rfl
    · exact Or.inl hp
  · rw [chainValues_cons hmemf, chainValues_frame hag]

/-! ## `pop_front` -/

theorem popFront_ok {l : UnsafeList T} {h : Heap T} {ps : List Nat}
    (w : WF l h ps) :
    OpOk h ps (l.popFront h).2.1 (l.popFront h).2.2 ps.tail ∧
      (l.popFront h).1 = (chainValues h ps).head? ∧
      chainValues (l.popFront h).2.2 ps.tail = (chainValues h ps).tail := by
  cases ps with
  | nil =>
    have hh : l.head = none := w.headEq
    simp only [UnsafeList.popFront, hh]
    exact ⟨⟨w, fun q _ _ => rfl, le_rfl, by simp⟩, rfl, rfl⟩
  | cons p ps =>
    have hh : l.head = some p := w.headEq
    have hc := w.chain
    rw [hh] at hc
    cases hc with
    | cons hm hrest =>
      rename_i nd
      have pnotin : p ∉ ps := (List.nodup_cons.mp w.nodup).1
      have hag : ∀ q ∈ ps, (h.free p).mem q = h.mem q := by
        intro q hq
        show (if q = p then none else h.mem q) = h.mem q
        have hqp : q ≠ p := fun he => pnotin (by rw [← he]; exact hq)
        rw [if_neg hqp]
      simp only [UnsafeList.popFront, hh, hm]
      refine ⟨⟨⟨hrest.frame hag, ?_, ?_, ?_⟩, ?_, le_rfl, ?_⟩, ?_, ?_⟩
      · have := w.lenEq
        simp at this
        show ps.length = l.len - 1
        omega
      · show (if nd.next.isNone then none else l.tail) = ps.getLast?
        cases hn : nd.next with
        | none =>
          rw [hn] at hrest
          cases hrest
          rfl
        | some q =>
          have hs := hrest.start
          rw [hn] at hs
          cases ps with
          | nil => simp [startPtr] at hs
          | cons q0 qs =>
            simp only [Option.isNone_some, Bool.false_eq_true, if_false]
            rw [w.tailEq, List.getLast?_cons_cons]
      · intro q hq
        exact w.bounded q (List.mem_cons_of_mem _ hq)
      · intro q hq _
        show (if q = p then none else h.mem q) = h.mem q
        have hqp : q ≠ p := fun he => hq (by rw [he]; exact List.mem_cons_self _ _)
        rw [if_neg hqp]
      · intro q hq
        exact Or.inl (List.mem_cons_of_mem _ hq)
      · rw [chainValues_cons hm]
        rfl
      · show chainValues (h.free p) ps = (chainValues h (p :: ps)).tail
        rw [chainValues_frame hag, chainValues_cons hm]
        rfl

/-! ## `push_back` -/

theorem pushBack_ok {l : UnsafeList T} {h : Heap T} {ps : List Nat}
    (w : WF l h ps) (x : T) :
    OpOk h ps (l.pushBack h x).1 (l.pushBack h x).2 (ps ++ [h.fresh]) ∧
      chainValues (l.pushBack h x).2 (ps ++ [h.fresh]) =
        chainValues h ps ++ [x] := by
  cases ht : l.tail with
  | none =>
    have hps : ps = [] := List.getLast?_eq_none_iff.mp (ht ▸ w.tailEq.symm)
    subst hps
    have hh : l.head = none := w.headEq
    have hlen : l.len = 0 := w.lenEq.symm
    simp only [UnsafeList.pushBack, Heap.alloc, ht]
    have hmemf :
        ((⟨fun q => if q = h.fresh then some ⟨x, none⟩ else h.mem q,
          h.fresh + 1⟩ : Heap T)).mem h.fresh = some ⟨x, none⟩ := by
      show (if h.fresh = h.fresh then some ⟨x, none⟩ else h.mem h.fresh) = _
      rw [if_pos rfl]
    refine ⟨⟨⟨?_, ?_, rfl, ?_⟩, ?_, ?_, ?_⟩, ?_⟩
    · exact ChainSeg.cons hmemf (ChainSeg.nil none)
    · show 1 = l.len + 1
      omega
    · intro q hq
      simp at hq
      subst hq
      show h.fresh < h.fresh + 1
      omega
    · intro q _ hq
      show (if q = h.fresh then some ⟨x, none⟩ else h.mem q) = h.mem q
      rw [if_neg (by omega)]
    · show h.fresh ≤ h.fresh + 1
      omega
    · intro q hq
      simp at hq
      subst hq
      exact Or.inr le_rfl
    · simp only [List.nil_append]
      rw [chainValues_cons hmemf]
      rfl
  | some t =>
    have hgl : ps.getLast? = some t := by rw [← w.tailEq, ht]
    obtain ⟨A, hA⟩ := getLast?_some_append hgl
    have htps : t ∈ ps := by rw [hA]; simp
    have hne : t ≠ h.fresh := by have := w.bounded t htps; omega
    have hcs := w.chain
    rw [hA] at hcs
    obtain ⟨m, s1, s2⟩ := chainSeg_split hcs
    have hms := s2.start
    simp only [startPtr] at hms
    subst hms
    cases s2 with
    | cons hm hrest =>
      rename_i nd
      have hnx : nd.next = none := hrest.start
      have tnotinA : t ∉ A := by
        have hnd := w.nodup
        rw [hA] at hnd
        rcases List.nodup_append.mp hnd with ⟨-, -, hdisj⟩
        intro hmem
        exact hdisj hmem (by simp)
      have hmt : (if t = h.fresh then some (⟨x, none⟩ : Node T)
          else h.mem t) = some nd := by rw [if_neg hne, hm]
      have hstep : l.pushBack h x =
          (⟨l.head, some h.fresh, l.len + 1⟩,
            ((h.alloc ⟨x, none⟩).2).set t ⟨nd.value, some h.fresh⟩) := by
        simp only [UnsafeList.pushBack, Heap.alloc, ht, hmt]
      rw [hstep]
      have hmem_t : (((h.alloc ⟨x, none⟩).2).set t
          ⟨nd.value, some h.fresh⟩).mem t = some ⟨nd.value, some h.fresh⟩ := by
        show (if t = t then _ else _) = _
        rw [if_pos rfl]
      have hmem_f : (((h.alloc ⟨x, none⟩).2).set t
          ⟨nd.value, some h.fresh⟩).mem h.fresh = some ⟨x, none⟩ := by
        show (if h.fresh = t then _
          else if h.fresh = h.fresh then some ⟨x, none⟩ else h.mem h.fresh) = _
        rw [if_neg (fun he => hne he.symm), if_pos rfl]
      have hmem_off : ∀ q, q ≠ t → q ≠ h.fresh →
          (((h.alloc ⟨x, none⟩).2).set t ⟨nd.value, some h.fresh⟩).mem q =
            h.mem q := by
        intro q hq1 hq2
        show (if q = t then _
          else if q = h.fresh then some ⟨x, none⟩ else h.mem q) = _
        rw [if_neg hq1, if_neg hq2]
      have hchain : ChainSeg
          (((h.alloc ⟨x, none⟩).2).set t ⟨nd.value, some h.fresh⟩)
          l.head (ps ++ [h.fresh]) none := by
        have s1f : ChainSeg
            (((h.alloc ⟨x, none⟩).2).set t ⟨nd.value, some h.fresh⟩)
            l.head A (some t) := by
          refine s1.frame ?_
          intro q hq
          have hqb : q < h.fresh := w.bounded q (by rw [hA]; simp [hq])
          exact hmem_off q (fun he => tnotinA (he ▸ hq)) (by omega)
        have seg2 : ChainSeg
            (((h.alloc ⟨x, none⟩).2).set t ⟨nd.value, some h.fresh⟩)
            (some t) [t, h.fresh] none :=
          ChainSeg.cons hmem_t (ChainSeg.cons hmem_f (ChainSeg.nil none))
        have := s1f.trans seg2
        rw [hA]
        simpa using this
      refine ⟨⟨⟨hchain, ?_, ?_, ?_⟩, ?_, ?_, ?_⟩, ?_⟩
      · show (ps ++ [h.fresh]).length = l.len + 1
        simp [w.lenEq]
      · show some h.fresh = (ps ++ [h.fresh]).getLast?
        rw [List.getLast?_concat]
      · intro q hq
        show q < h.fresh + 1
        rcases List.mem_append.mp hq with hq | hq
        · have := w.bounded q hq
          omega
        · simp at hq
          omega
      · intro q hq hqb
        exact hmem_off q (fun he => hq (he ▸ htps)) (by omega)
      · show h.fresh ≤ h.fresh + 1
        omega
      · intro q hq
        rcases List.mem_append.mp hq with hq | hq
        · exact Or.inl hq
        · simp at hq
          subst hq
          exact Or.inr le_rfl
      · rw [chainValues, List.filterMap_append]
        show chainValues _ ps ++ chainValues _ [h.fresh] = _
        have hv2 : chainValues
            (((h.alloc ⟨x, none⟩).2).set t ⟨nd.value, some h.fresh⟩)
            [h.fresh] = [x] := by
          simp [chainValues, List.filterMap_cons, hmem_f]
        have hv1 : chainValues
            (((h.alloc ⟨x, none⟩).2).set t ⟨nd.value, some h.fresh⟩) ps =
            chainValues h ps := by
          refine chainValues_congr ?_
          intro q hq
          by_cases hqt : q = t
          · subst hqt
            rw [hmem_t, hm]
            rfl
          · have hqb : q < h.fresh := w.bounded q hq
            rw [hmem_off q hqt (by omega)]
        rw [hv1, hv2]

/-! ## `reverse` -/

theorem startPtr_concat {xs : List Nat} {p : Nat} {d : Option Nat} :
    startPtr (xs ++ [p]) d = startPtr xs (some p) := by
  cases xs <;> rfl

theorem startPtr_none_head {xs : List Nat} :
    startPtr xs none = xs.head? := by
  cases xs <;> rfl

theorem reverseLoop_go {T : Type} :
    ∀ (ps : List Nat) (h : Heap T) (o prev r0 : Option Nat)
      (acc : List Nat) (fuel : Nat),
      ChainSeg h o ps none → ChainSeg h prev acc r0 →
      (∀ p ∈ ps, p ∉ acc) → ps.Nodup → ps.length ≤ fuel →
      ChainSeg (UnsafeList.reverseLoop fuel h prev o)
          (startPtr ps.reverse prev) (ps.reverse ++ acc) r0 ∧
        (∀ q, q ∉ ps →
          (UnsafeList.reverseLoop fuel h prev o).mem q = h.mem q) ∧
        (UnsafeList.reverseLoop fuel h prev o).fresh = h.fresh ∧
        (∀ p ∈ ps,
          ((UnsafeList.reverseLoop fuel h prev o).mem p).map Node.value =
            (h.mem p).map Node.value) := by
  intro ps
  induction ps with
  | nil =>
    intro h o prev r0 acc fuel hc hacc _ _ _
    cases hc
    have hsame : UnsafeList.reverseLoop fuel h prev none = h := by
      cases fuel <;> rfl
    rw [hsame]
    exact ⟨hacc, fun _ _ => rfl, rfl, by simp⟩
  | cons p ps ih =>
    intro h o prev r0 acc fuel hc hacc hdisj hnd hfuel
    cases hc with
    | cons hm hrest =>
      rename_i nd
      cases fuel with
      | zero => simp at hfuel
      | succ f =>
        have hred : UnsafeList.reverseLoop (f + 1) h prev (some p) =
            UnsafeList.reverseLoop f (h.set p ⟨nd.value, prev⟩)
              (some p) nd.next := by
          simp only [UnsafeList.reverseLoop, hm]
        rw [hred]
        have pnotin : p ∉ ps := (List.nodup_cons.mp hnd).1
        have hmemp : (h.set p ⟨nd.value, prev⟩).mem p =
            some ⟨nd.value, prev⟩ := by
          show (if p = p then _ else _) = _
          rw [if_pos rfl]
        have hoff : ∀ q, q ≠ p →
            (h.set p ⟨nd.value, prev⟩).mem q = h.mem q := by
          intro q hq
          show (if q = p then _ else _) = _
          rw [if_neg hq]
        have hacc1 : ChainSeg (h.set p ⟨nd.value, prev⟩) (some p)
            (p :: acc) r0 := by
          refine ChainSeg.cons hmemp ?_
          refine hacc.frame ?_
          intro q hq
          exact hoff q fun he => hdisj p (List.mem_cons_self _ _) (he ▸ hq)
        have hrest1 : ChainSeg (h.set p ⟨nd.value, prev⟩) nd.next ps none := by
          refine hrest.frame ?_
          intro q hq
          exact hoff q fun he => pnotin (he ▸ hq)
        have hdisj1 : ∀ q ∈ ps, q ∉ p :: acc := by
          intro q hq hmem
          rcases List.mem_cons.mp hmem with rfl | hmem
          · exact pnotin hq
          · exact hdisj q (List.mem_cons_of_mem _ hq) hmem
        obtain ⟨c1, c2, c3, c4⟩ := ih (h.set p ⟨nd.value, prev⟩) nd.next
          (some p) r0 (p :: acc) f hrest1 hacc1 hdisj1
          (List.nodup_cons.mp hnd).2 (by simpa using hfuel)
        refine ⟨?_, ?_, ?_, ?_⟩
        · have heq1 : (p :: ps).reverse ++ acc = ps.reverse ++ (p :: acc) := by
            simp
          have heq2 : startPtr ((p :: ps).reverse) prev =
              startPtr ps.reverse (some p) := by
            rw [List.reverse_cons, startPtr_concat]
          rw [heq1, heq2]
          exact c1
        · intro q hq
          have hq1 : q ∉ ps := fun hmem => hq (List.mem_cons_of_mem _ hmem)
          have hq2 : q ≠ p := fun he => hq (he ▸ List.mem_cons_self _ _)
          rw [c2 q hq1, hoff q hq2]
        · rw [c3]
          rfl
        · intro q hq
          rcases List.mem_cons.mp hq with rfl | hq
          · rw [c2 q pnotin, hmemp, hm]
            rfl
          · have hq2 : q ≠ p := fun he => pnotin (he ▸ hq)
            rw [c4 q hq, hoff q hq2]

theorem reverse_ok {l : UnsafeList T} {h : Heap T} {ps : List Nat}
    (w : WF l h ps) :
    OpOk h ps (l.reverse h).1 (l.reverse h).2 ps.reverse ∧
      (∀ q, q ∉ ps → (l.reverse h).2.mem q = h.mem q) ∧
      (l.reverse h).2.fresh = h.fresh ∧
      (∀ p ∈ ps, ((l.reverse h).2.mem p).map Node.value =
        (h.mem p).map Node.value) ∧
      chainValues (l.reverse h).2 ps.reverse =
        (chainValues h ps).reverse := by
  obtain ⟨c1, c2, c3, c4⟩ := reverseLoop_go ps h l.head none none [] (l.len + 1)
    w.chain (ChainSeg.nil none) (by simp) w.nodup (by rw [w.lenEq]; omega)
  have hh2 : (l.reverse h).2 =
      UnsafeList.reverseLoop (l.len + 1) h none l.head := rfl
  have hvals : chainValues (l.reverse h).2 ps.reverse =
      (chainValues h ps).reverse := by
    rw [hh2]
    have : chainValues (UnsafeList.reverseLoop (l.len + 1) h none l.head)
        ps.reverse = chainValues h ps.reverse := by
      refine chainValues_congr ?_
      intro q hq
      exact c4 q (List.mem_reverse.mp hq)
    rw [this]
    rw [chainValues, chainValues, List.filterMap_reverse]
  refine ⟨⟨⟨?_, ?_, ?_, ?_⟩, ?_, ?_, ?_⟩, ?_, ?_, ?_, hvals⟩
  · show ChainSeg _ l.tail ps.reverse none
    have hstart : startPtr ps.reverse none = l.tail := by
      rw [startPtr_none_head, List.head?_reverse, w.tailEq]
    rw [← hstart]
    simpa using c1
  · show ps.reverse.length = l.len
    simp [w.lenEq]
  · show l.head = ps.reverse.getLast?
    rw [List.getLast?_reverse, w.headEq, startPtr_none_head]
  · intro q hq
    rw [hh2, c3]
    exact w.bounded q (List.mem_reverse.mp hq)
  · intro q hq _
    exact c2 q hq
  · rw [hh2, c3]
  · intro q hq
    exact Or.inl (List.mem_reverse.mp hq)
  · intro q hq
    exact c2 q hq
  · exact c3
  · intro q hq
    exact c4 q hq

/-! ## `remove` -/

theorem startPtr_getElem {xs : List Nat} : startPtr xs none = xs[0]? := by
  cases xs <;> simp [startPtr]

theorem removeWalk_spec {h : Heap T} :
    ∀ (n : Nat) {ps : List Nat} {o prev : Option Nat},
      ChainSeg h o ps none → 1 ≤ n → n ≤ ps.length →
      UnsafeList.removeWalk n h prev o = (ps[n - 1]?, ps[n]?) := by
  intro n
  induction n with
  | zero => omega
  | succ m ih =>
    intro ps o prev hc _ hlen
    cases ps with
    | nil => simp at hlen
    | cons p ps =>
      cases hc with
      | cons hm hrest =>
        rename_i nd
        have hred : UnsafeList.removeWalk (m + 1) h prev (some p) =
            UnsafeList.removeWalk m h (some p) nd.next := by
          simp only [UnsafeList.removeWalk, hm, Option.some_bind]
        rw [hred]
        cases m with
        | zero =>
          have hwalk : UnsafeList.removeWalk 0 h (some p) nd.next =
              (some p, nd.next) := rfl
          rw [hwalk]
          have : nd.next = ps[0]? := by
            rw [← startPtr_getElem]
            exact hrest.start
          simp [this]
        | succ k =>
          rw [ih hrest (by omega) (by simpa using hlen)]
          simp

theorem split_two {α : Type} {ps : List α} {i : Nat} (h1 : 1 ≤ i)
    (h2 : i < ps.length) :
    ∃ A pp cp B, ps = A ++ pp :: cp :: B ∧ A.length = i - 1 := by
  have hlt : i - 1 < ps.length := by omega
  have hdr : (ps.drop (i - 1)).length = ps.length - (i - 1) := by
    rw [List.length_drop]
  have hne : ps.drop (i - 1) ≠ [] := by
    intro he
    rw [he] at hdr
    simp at hdr
    omega
  obtain ⟨pp, rest, hrest⟩ := List.exists_cons_of_ne_nil hne
  have hr2 : rest.length = ps.length - i := by
    have := congrArg List.length hrest
    rw [hdr] at this
    simp at this
    omega
  have hne2 : rest ≠ [] := by
    intro he
    rw [he] at hr2
    simp at hr2
    omega
  obtain ⟨cp, B, hB⟩ := List.exists_cons_of_ne_nil hne2
  refine ⟨ps.take (i - 1), pp, cp, B, ?_, ?_⟩
  · have hta := List.take_append_drop (i - 1) ps
    rw [hrest, hB] at hta
    exact hta.symm
  · rw [List.length_take]
    omega

theorem eraseIdx_append_plus {α : Type} :
    ∀ (A : List α) (k : Nat) (ys : List α),
      (A ++ ys).eraseIdx (A.length + k) = A ++ ys.eraseIdx k := by
  intro A
  induction A with
  | nil => intro k ys; simp
  | cons a A ih =>
    intro k ys
    have : (a :: A).length + k = (A.length + k) + 1 := by
      simp
      omega
    rw [this]
    simp only [List.cons_append, List.eraseIdx_cons_succ]
    rw [ih]

theorem getElem_append_plus {α : Type} :
    ∀ (A : List α) (k : Nat) (ys : List α),
      (A ++ ys)[A.length + k]? = ys[k]? := by
  intro A k ys
  rw [List.getElem?_append_right (by omega)]
  congr 1
  omega

theorem remove_pos_ok {l : UnsafeList T} {h : Heap T} {ps : List Nat}
    (w : WF l h ps) {i : Nat} (hge : 1 ≤ i) (hlt : i < l.len) :
    (∃ pp cp, UnsafeList.removeWalk i h none l.head = (some pp, some cp)) ∧
      (l.remove h i).1 = (chainValues h ps)[i]? ∧
      (l.remove h i).1.isSome ∧
      OpOk h ps (l.remove h i).2.1 (l.remove h i).2.2 (ps.eraseIdx i) ∧
      chainValues (l.remove h i).2.2 (ps.eraseIdx i) =
        (chainValues h ps).eraseIdx i := by
  have hlen : ps.length = l.len := w.lenEq
  obtain ⟨A, pp, cp, B, hsplit, hAlen⟩ :=
    split_two hge (by omega : i < ps.length)
  have hiA : i = A.length + 1 := by omega
  have hwalk : UnsafeList.removeWalk i h none l.head =
      (ps[i - 1]?, ps[i]?) :=
    removeWalk_spec i w.chain hge (by omega)
  have hpp : ps[i - 1]? = some pp := by
    rw [hsplit, ← hAlen]
    have : (A ++ pp :: cp :: B)[A.length]? = (pp :: cp :: B)[0]? := by
      have := getElem_append_plus A 0 (pp :: cp :: B)
      simpa using this
    rw [this]
    simp
  have hcp : ps[i]? = some cp := by
    rw [hsplit, hiA, getElem_append_plus A 1 (pp :: cp :: B)]
    simp
  -- decompose the chain around `pp` and `cp`
  have hcs := w.chain
  rw [hsplit] at hcs
  obtain ⟨m1, sA, s1⟩ := chainSeg_split hcs
  have hm1 : m1 = some pp := s1.start
  subst hm1
  cases s1 with
  | cons hmpp s2 =>
    rename_i prevNd
    have hpnext : prevNd.next = some cp := s2.start
    rw [hpnext] at s2
    cases s2 with
    | cons hmcp s3 =>
      rename_i curr
      -- distinctness facts
      have hnd := w.nodup
      rw [hsplit] at hnd
      rcases List.nodup_append.mp hnd with ⟨hndA, hnd2, hdisjA⟩
      have hppcp : pp ≠ cp := by
        intro he
        have := (List.nodup_cons.mp hnd2).1
        exact this (he ▸ List.mem_cons_self _ _)
      have hppB : pp ∉ B := by
        intro hmem
        exact (List.nodup_cons.mp hnd2).1 (List.mem_cons_of_mem _ hmem)
      have hcpB : cp ∉ B := by
        have := (List.nodup_cons.mp (List.nodup_cons.mp hnd2).2).1
        exact this
      have hppA : pp ∉ A := fun hmem => hdisjA hmem (List.mem_cons_self _ _)
      have hcpA : cp ∉ A := fun hmem =>
        hdisjA hmem (List.mem_cons_of_mem _ (List.mem_cons_self _ _))
      -- compute the operation
      have hcond1 : ¬ i ≥ l.len := by omega
      have hcond2 : ¬ i = 0 := by omega
      have hstep : l.remove h i =
          (some curr.value,
            ⟨l.head, if curr.next.isNone then some pp else l.tail,
              l.len - 1⟩,
            (h.set pp ⟨prevNd.value, curr.next⟩).free cp) := by
        rw [UnsafeList.remove, if_neg hcond1, if_neg hcond2, hwalk, hpp, hcp]
        simp only [hmcp, hmpp]
      -- heap facts
      have hm_pp : ((h.set pp ⟨prevNd.value, curr.next⟩).free cp).mem pp =
          some ⟨prevNd.value, curr.next⟩ := by
        show (if pp = cp then none else
          if pp = pp then some ⟨prevNd.value, curr.next⟩ else h.mem pp) = _
        rw [if_neg hppcp, if_pos rfl]
      have hm_off : ∀ q, q ≠ pp → q ≠ cp →
          ((h.set pp ⟨prevNd.value, curr.next⟩).free cp).mem q = h.mem q := by
        intro q h1 h2
        show (if q = cp then none else
          if q = pp then some ⟨prevNd.value, curr.next⟩ else h.mem q) = _
        rw [if_neg h2, if_neg h1]
      -- the new chain
      have sA2 : ChainSeg ((h.set pp ⟨prevNd.value, curr.next⟩).free cp)
          l.head A (some pp) := by
        refine sA.frame ?_
        intro q hq
        exact hm_off q (fun he => hppA (he ▸ hq)) (fun he => hcpA (he ▸ hq))
      have s32 : ChainSeg ((h.set pp ⟨prevNd.value, curr.next⟩).free cp)
          curr.next B none := by
        refine s3.frame ?_
        intro q hq
        exact hm_off q (fun he => hppB (he ▸ hq)) (fun he => hcpB (he ▸ hq))
      have hchain : ChainSeg ((h.set pp ⟨prevNd.value, curr.next⟩).free cp)
          l.head (A ++ pp :: B) none :=
        sA2.trans (ChainSeg.cons hm_pp s32)
      have herase : ps.eraseIdx i = A ++ pp :: B := by
        rw [hsplit, hiA, eraseIdx_append_plus A 1 (pp :: cp :: B)]
        rfl
      have hvalsA : (chainValues h A).length = A.length :=
        chain_values_length sA
      have hvals_split : chainValues h ps =
          chainValues h A ++ prevNd.value :: curr.value :: chainValues h B := by
        rw [hsplit, chainValues_append, chainValues_cons hmpp,
          chainValues_cons hmcp]
      have hvals_new : chainValues
          ((h.set pp ⟨prevNd.value, curr.next⟩).free cp) (A ++ pp :: B) =
          chainValues h A ++ prevNd.value :: chainValues h B := by
        rw [chainValues_append, chainValues_cons hm_pp]
        have e1 : chainValues ((h.set pp ⟨prevNd.value, curr.next⟩).free cp) A
            = chainValues h A := by
          refine chainValues_frame ?_
          intro q hq
          exact hm_off q (fun he => hppA (he ▸ hq)) (fun he => hcpA (he ▸ hq))
        have e2 : chainValues ((h.set pp ⟨prevNd.value, curr.next⟩).free cp) B
            = chainValues h B := by
          refine chainValues_frame ?_
          intro q hq
          exact hm_off q (fun he => hppB (he ▸ hq)) (fun he => hcpB (he ▸ hq))
        rw [e1, e2]
      refine ⟨⟨pp, cp, by rw [hwalk, hpp, hcp]⟩, ?_, ?_, ?_, ?_⟩
      · rw [hstep, hvals_split]
        have : (chainValues h A ++
            prevNd.value :: curr.value :: chainValues h B)[i]? =
            (prevNd.value :: curr.value :: chainValues h B)[1]? := by
          rw [hiA, ← hvalsA, getElem_append_plus]
        rw [this]
        simp
      · rw [hstep]
        simp
      · refine ⟨⟨?_, ?_, ?_, ?_⟩, ?_, ?_, ?_⟩
        · show ChainSeg _ (l.remove h i).2.1.head _ none
          rw [hstep, herase]
          exact hchain
        · rw [hstep, herase]
          show (A ++ pp :: B).length = l.len - 1
          have := congrArg List.length hsplit
          simp at this ⊢
          omega
        · rw [hstep, herase]
          show (if curr.next.isNone then some pp else l.tail) =
            (A ++ pp :: B).getLast?
          cases hn : curr.next with
          | none =>
            rw [hn] at s3
            cases s3
            simp only [Option.isNone_none, if_pos]
            rw [List.getLast?_append_of_ne_nil A (by simp)]
            rfl
          | some b =>
            have hs := s3.start
            rw [hn] at hs
            cases B with
            | nil => simp [startPtr] at hs
            | cons b0 B2 =>
              simp only [Option.isNone_some, Bool.false_eq_true, if_false]
              rw [w.tailEq, hsplit]
              rw [List.getLast?_append_of_ne_nil A (by simp),
                List.getLast?_append_of_ne_nil A (by simp)]
              rw [List.getLast?_cons_cons, List.getLast?_cons_cons,
                List.getLast?_cons_cons]
        · rw [hstep, herase]
          intro q hq
          show q < h.fresh
          refine w.bounded q ?_
          rw [hsplit]
          rcases List.mem_append.mp hq with hq | hq
          · exact List.mem_append.mpr (Or.inl hq)
          · rcases List.mem_cons.mp hq with rfl | hq
            · exact List.mem_append.mpr (Or.inr (List.mem_cons_self _ _))
            · exact List.mem_append.mpr (Or.inr (List.mem_cons_of_mem _
                (List.mem_cons_of_mem _ hq)))
        · rw [hstep]
          intro q hq _
          have hq1 : q ≠ pp := fun he => hq (by
            rw [he, hsplit]
            exact List.mem_append.mpr (Or.inr (List.mem_cons_self _ _)))
          have hq2 : q ≠ cp := fun he => hq (by
            rw [he, hsplit]
            exact List.mem_append.mpr (Or.inr
              (List.mem_cons_of_mem _ (List.mem_cons_self _ _))))
          exact hm_off q hq1 hq2
        · rw [hstep]
          exact le_rfl
        · rw [herase]
          intro q hq
          refine Or.inl ?_
          rw [hsplit]
          rcases List.mem_append.mp hq with hq | hq
          · exact List.mem_append.mpr (Or.inl hq)
          · rcases List.mem_cons.mp hq with rfl | hq
            · exact List.mem_append.mpr (Or.inr (List.mem_cons_self _ _))
            · exact List.mem_append.mpr (Or.inr (List.mem_cons_of_mem _
                (List.mem_cons_of_mem _ hq)))
      · rw [hstep, herase, hvals_new, hvals_split, hiA, ← hvalsA,
          eraseIdx_append_plus]
        rfl

theorem remove_range_ok {l : UnsafeList T} {h : Heap T} {ps : List Nat}
    (w : WF l h ps) {i : Nat} (hlt : i < l.len) :
    (l.remove h i).1 = (chainValues h ps)[i]? ∧
      (l.remove h i).1.isSome ∧
      OpOk h ps (l.remove h i).2.1 (l.remove h i).2.2 (ps.eraseIdx i) ∧
      chainValues (l.remove h i).2.2 (ps.eraseIdx i) =
        (chainValues h ps).eraseIdx i := by
  cases Nat.eq_zero_or_pos i with
  | inr hpos =>
    obtain ⟨_, c2, c3, c4, c5⟩ := remove_pos_ok w hpos hlt
    exact ⟨c2, c3, c4, c5⟩
  | inl hz =>
    subst hz
    have hred : l.remove h 0 = l.popFront h := by
      rw [UnsafeList.remove, if_neg (by omega), if_pos rfl]
    obtain ⟨cok, cval, cvals⟩ := popFront_ok w
    cases ps with
    | nil =>
      have : (0:Nat) < 0 := by
        have := w.lenEq
        simp at this
        omega
      omega
    | cons p ps2 =>
      have hh : l.head = some p := w.headEq
      have hc := w.chain
      rw [hh] at hc
      cases hc with
      | cons hm _ =>
        rw [hred]
        refine ⟨?_, ?_, ?_, ?_⟩
        · rw [cval, chainValues_cons hm]
          simp
        · rw [cval, chainValues_cons hm]
          simp
        · rw [List.eraseIdx_cons_zero]
          exact cok
        · rw [List.eraseIdx_cons_zero]
          show chainValues _ (p :: ps2).tail = _
          rw [cvals, chainValues_cons hm]
          simp

/-- `remove` with an out-of-range index changes nothing at all. -/
theorem remove_out_of_range {l : UnsafeList T} {h : Heap T} {i : Nat}
    (hge : i ≥ l.len) : l.remove h i = (none, l, h) := by
  rw [UnsafeList.remove, if_pos hge]

/-- `pop_front`, `peek_front` and `peek_front_mut` on an empty chain. -/
theorem front_ops_empty {l : UnsafeList T} {h : Heap T}
    (hh : l.head = none) :
    l.popFront h = (none, l, h) ∧ l.peekFront h = none ∧
      l.peekFrontMut h = none := by
  refine ⟨?_, ?_, ?_⟩ <;>
    simp [UnsafeList.popFront, UnsafeList.peekFront, UnsafeList.peekFrontMut, hh]

/-! ## `append` -/

theorem append_ok {l o : UnsafeList T} {h : Heap T} {ps qs : List Nat}
    (wl : WF l h ps) (wo : WF o h qs) (hdisj : ∀ p ∈ ps, p ∉ qs) :
    WF (l.append o h).1 (l.append o h).2.2 (ps ++ qs) ∧
      (l.append o h).2.1 = UnsafeList.new T ∧
      (∀ q, q ∉ ps → q < h.fresh → (l.append o h).2.2.mem q = h.mem q) ∧
      (l.append o h).2.2.fresh = h.fresh ∧
      chainValues (l.append o h).2.2 (ps ++ qs) =
        chainValues h ps ++ chainValues h qs := by
  cases hoh : o.head with
  | none =>
    have hqs : qs = [] := by
      have hs := wo.headEq
      rw [hoh] at hs
      cases qs with
      | nil => rfl
      | cons q qs => simp [startPtr] at hs
    subst hqs
    have hred : l.append o h = (l, o, h) := by
      simp [UnsafeList.append, UnsafeList.isEmpty, hoh]
    rw [hred, List.append_nil]
    exact ⟨wl, wo.eq_new, fun _ _ _ => rfl, rfl, by simp [chainValues]⟩
  | some q0 =>
    have hqs_ne : qs ≠ [] := by
      intro he
      have hs := wo.headEq
      rw [hoh, he] at hs
      simp [startPtr] at hs
    cases hlh : l.head with
    | none =>
      have hps : ps = [] := by
        have hs := wl.headEq
        rw [hlh] at hs
        cases ps with
        | nil => rfl
        | cons p ps => simp [startPtr] at hs
      subst hps
      have hred : l.append o h = (o, l, h) := by
        simp [UnsafeList.append, UnsafeList.isEmpty, hoh, hlh]
      rw [hred]
      exact ⟨wo, wl.eq_new, fun _ _ _ => rfl, rfl, rfl⟩
    | some p0 =>
      have hps_ne : ps ≠ [] := by
        intro he
        have hs := wl.headEq
        rw [hlh, he] at hs
        simp [startPtr] at hs
      cases hgl : ps.getLast? with
      | none => exact absurd (List.getLast?_eq_none_iff.mp hgl) hps_ne
      | some t =>
        have ht : l.tail = some t := by rw [wl.tailEq, hgl]
        obtain ⟨A, hA⟩ := getLast?_some_append hgl
        have htps : t ∈ ps := by rw [hA]; simp
        have hcs := wl.chain
        rw [hA] at hcs
        obtain ⟨m, sA, s2⟩ := chainSeg_split hcs
        have hms : m = some t := s2.start
        subst hms
        cases s2 with
        | cons hm hrest =>
          rename_i nd
          have tnotinA : t ∉ A := by
            have hnd := wl.nodup
            rw [hA] at hnd
            rcases List.nodup_append.mp hnd with ⟨-, -, hdisjA⟩
            intro hmem
            exact hdisjA hmem (by simp)
          have hstep : l.append o h =
              (⟨l.head, o.tail, l.len + o.len⟩, ⟨none, none, 0⟩,
                h.set t ⟨nd.value, o.head⟩) := by
            simp [UnsafeList.append, UnsafeList.isEmpty, hoh, hlh, ht, hm]
          rw [hstep]
          have hmem_t : (h.set t ⟨nd.value, o.head⟩).mem t =
              some ⟨nd.value, o.head⟩ := by
            show (if t = t then _ else _) = _
            rw [if_pos rfl]
          have hoff : ∀ q, q ≠ t →
              (h.set t ⟨nd.value, o.head⟩).mem q = h.mem q := by
            intro q hq
            show (if q = t then _ else _) = _
            rw [if_neg hq]
          have tnotinqs : t ∉ qs := hdisj t htps
          have hqs_chain : ChainSeg (h.set t ⟨nd.value, o.head⟩) o.head qs
              none :=
            wo.chain.frame fun q hq =>
              hoff q fun he => tnotinqs (he ▸ hq)
          have hchain : ChainSeg (h.set t ⟨nd.value, o.head⟩) l.head
              (ps ++ qs) none := by
            have sA2 : ChainSeg (h.set t ⟨nd.value, o.head⟩) l.head A
                (some t) :=
              sA.frame fun q hq => hoff q fun he => tnotinA (he ▸ hq)
            have seg2 : ChainSeg (h.set t ⟨nd.value, o.head⟩) (some t)
                (t :: qs) none := ChainSeg.cons hmem_t hqs_chain
            have := sA2.trans seg2
            rw [hA]
            simpa using this
          refine ⟨⟨hchain, ?_, ?_, ?_⟩, rfl, ?_, rfl, ?_⟩
          · show (ps ++ qs).length = l.len + o.len
            simp [wl.lenEq, wo.lenEq]
          · show o.tail = (ps ++ qs).getLast?
            rw [List.getLast?_append_of_ne_nil ps hqs_ne, wo.tailEq]
          · intro q hq
            show q < h.fresh
            rcases List.mem_append.mp hq with hq | hq
            · exact wl.bounded q hq
            · exact wo.bounded q hq
          · intro q hq _
            exact hoff q fun he => hq (he ▸ htps)
          · rw [chainValues_append]
            have e2 : chainValues (h.set t ⟨nd.value, o.head⟩) qs =
                chainValues h qs :=
              chainValues_frame fun q hq =>
                hoff q fun he => tnotinqs (he ▸ hq)
            have e1 : chainValues (h.set t ⟨nd.value, o.head⟩) ps =
                chainValues h ps := by
              refine chainValues_congr ?_
              intro q hq
              by_cases hqt : q = t
              · subst hqt
                rw [hmem_t, hm]
                rfl
              · rw [hoff q hqt]
            rw [e1, e2]

/-- Dropping/clearing a freshly emptied chain touches nothing. -/
theorem clear_new (h : Heap T) :
    (UnsafeList.new T).clear h = (UnsafeList.new T, h) := rfl

/-! ## `From<Vec<T>>` and iteration -/

theorem OpOk.comp {h h1 h2 : Heap T} {ps ps1 ps2 : List Nat}
    {l1 l2 : UnsafeList T} (o1 : OpOk h ps l1 h1 ps1)
    (o2 : OpOk h1 ps1 l2 h2 ps2) : OpOk h ps l2 h2 ps2 := by
  refine ⟨o2.wf, ?_, le_trans o1.mono o2.mono, ?_⟩
  · intro q hq hqb
    have hq1 : q ∉ ps1 := by
      intro hmem
      rcases o1.sub q hmem with hmem | hge
      · exact hq hmem
      · omega
    rw [o2.frame q hq1 (lt_of_lt_of_le hqb o1.mono), o1.frame q hq hqb]
  · intro p hp
    rcases o2.sub p hp with hp | hge
    · exact o1.sub p hp
    · exact Or.inr (le_trans o1.mono hge)

theorem OpOk.refl {h : Heap T} {ps : List Nat} {l : UnsafeList T}
    (w : WF l h ps) : OpOk h ps l h ps :=
  ⟨w, fun _ _ _ => rfl, le_rfl, fun p hp => Or.inl hp⟩

theorem fromVec_go :
    ∀ (v : List T) (acc : UnsafeList T) (h : Heap T) (ps : List Nat),
      WF acc h ps →
      ∃ ps2,
        OpOk h ps
          (v.foldl (fun a x => UnsafeList.pushBack a.1 a.2 x) (acc, h)).1
          (v.foldl (fun a x => UnsafeList.pushBack a.1 a.2 x) (acc, h)).2
          ps2 ∧
        chainValues
          (v.foldl (fun a x => UnsafeList.pushBack a.1 a.2 x) (acc, h)).2
          ps2 = chainValues h ps ++ v := by
  intro v
  induction v with
  | nil =>
    intro acc h ps w
    exact ⟨ps, OpOk.refl w, by simp⟩
  | cons x v ih =>
    intro acc h ps w
    obtain ⟨opb, hvb⟩ := pushBack_ok w x
    obtain ⟨ps2, op2, hv2⟩ := ih (acc.pushBack h x).1 (acc.pushBack h x).2
      (ps ++ [h.fresh]) opb.wf
    refine ⟨ps2, ?_, ?_⟩
    · have : (x :: v).foldl (fun a y => UnsafeList.pushBack a.1 a.2 y)
          (acc, h) = v.foldl (fun a y => UnsafeList.pushBack a.1 a.2 y)
          (acc.pushBack h x) := by
        simp [List.foldl_cons]
      rw [this]
      exact opb.comp op2
    · have : (x :: v).foldl (fun a y => UnsafeList.pushBack a.1 a.2 y)
          (acc, h) = v.foldl (fun a y => UnsafeList.pushBack a.1 a.2 y)
          (acc.pushBack h x) := by
        simp [List.foldl_cons]
      rw [this, hv2, hvb]
      simp

theorem fromVec_ok (v : List T) (h : Heap T) :
    ∃ ps2, OpOk h [] (UnsafeList.fromVec v h).1 (UnsafeList.fromVec v h).2
        ps2 ∧
      chainValues (UnsafeList.fromVec v h).2 ps2 = v := by
  obtain ⟨ps2, op2, hv2⟩ := fromVec_go v (UnsafeList.new T) h [] (new_wf h)
  exact ⟨ps2, op2, hv2⟩

/-- The consuming iteration (`IntoIter`) from a well-formed state yields the
chain's values. -/
theorem intoIter_spec :
    ∀ (ps : List Nat) (l : UnsafeList T) (h : Heap T), WF l h ps →
      ∀ fuel, ps.length ≤ fuel →
        UnsafeList.intoIterFuel fuel l h = chainValues h ps := by
  intro ps
  induction ps with
  | nil =>
    intro l h w fuel _
    have hh : l.head = none := w.headEq
    cases fuel with
    | zero => rfl
    | succ f =>
      show (match l.popFront h with
        | (none, _, _) => []
        | (some x, l1, h1) => x :: UnsafeList.intoIterFuel f l1 h1) = _
      rw [(front_ops_empty hh).1]
      rfl
  | cons p ps ih =>
    intro l h w fuel hfuel
    obtain ⟨cok, cval, cvals⟩ := popFront_ok w
    have hh : l.head = some p := w.headEq
    have hc := w.chain
    rw [hh] at hc
    cases hc with
    | cons hm hrest =>
      rename_i nd
      cases fuel with
      | zero => simp at hfuel
      | succ f =>
        have hv : (l.popFront h).1 = some nd.value := by
          rw [cval, chainValues_cons hm]
          rfl
        have hpf : l.popFront h =
            (some nd.value, (l.popFront h).2.1, (l.popFront h).2.2) := by
          rw [← hv]
        show (match l.popFront h with
          | (none, _, _) => []
          | (some x, l1, h1) => x :: UnsafeList.intoIterFuel f l1 h1) = _
        rw [hpf]
        show nd.value :: UnsafeList.intoIterFuel f (l.popFront h).2.1
          (l.popFront h).2.2 = _
        rw [ih (l.popFront h).2.1 (l.popFront h).2.2 cok.wf f
          (by simpa using hfuel)]
        rw [chainValues_cons hm]
        show nd.value :: chainValues (l.popFront h).2.2 (p :: ps).tail = _
        rw [cvals, chainValues_cons hm]
        rfl

theorem getElem?_some_lt {α : Type} {l : List α} {i : Nat} {x : α}
    (h : l[i]? = some x) : i < l.length := by
  by_contra hc
  rw [List.getElem?_eq_none (by omega)] at h
  exact Option.noConfusion h

theorem inv_cons {ls : List (UnsafeList T)} {h : Heap T}
    {l2 : UnsafeList T} {h2 : Heap T} {ps2 : List Nat}
    (hinv : Inv ls h) (hop : OpOk h [] l2 h2 ps2) :
    Inv (l2 :: ls) h2 := by
  obtain ⟨pss, hlen, hwf, hdisj⟩ := hinv
  have hps2hi : ∀ p ∈ ps2, h.fresh ≤ p := by
    intro p hp
    rcases hop.sub p hp with hmem | hge
    · exact absurd hmem (List.not_mem_nil p)
    · exact hge
  refine ⟨ps2 :: pss, by simp [hlen], ?_, ?_⟩
  · intro i li psi hi hpi
    cases i with
    | zero =>
      rw [List.getElem?_cons_zero] at hi hpi
      cases hi
      cases hpi
      exact hop.wf
    | succ k =>
      rw [List.getElem?_cons_succ] at hi hpi
      refine (hwf k li psi hi hpi).frameHeap ?_ hop.mono
      intro q hq
      have hb := (hwf k li psi hi hpi).bounded q hq
      exact hop.frame q (List.not_mem_nil q) hb
  · intro i j a b hne hi hj p hp hpb
    cases i with
    | zero =>
      rw [List.getElem?_cons_zero] at hi
      cases hi
      cases j with
      | zero => exact hne rfl
      | succ m =>
        rw [List.getElem?_cons_succ] at hj
        have hlt := getElem?_some_lt hj
        have hb : ∀ q ∈ b, q < h.fresh := by
          have hltls : m < ls.length := by omega
          have hm2 : ls[m]? = some ls[m] := List.getElem?_eq_getElem hltls
          exact (hwf m ls[m] b hm2 hj).bounded
        have := hb p hpb
        have := hps2hi p hp
        omega
    | succ k =>
      rw [List.getElem?_cons_succ] at hi
      cases j with
      | zero =>
        rw [List.getElem?_cons_zero] at hj
        cases hj
        have hb : ∀ q ∈ a, q < h.fresh := by
          have hlt := getElem?_some_lt hi
          have hltls : k < ls.length := by omega
          have hk2 : ls[k]? = some ls[k] := List.getElem?_eq_getElem hltls
          exact (hwf k ls[k] a hk2 hi).bounded
        have := hb p hp
        have := hps2hi p hpb
        omega
      | succ m =>
        rw [List.getElem?_cons_succ] at hj
        exact hdisj k m a b (fun he => hne (by rw [he])) hi hj p hp hpb

theorem inv_set {ls : List (UnsafeList T)} {h : Heap T} {i : Nat}
    {li : UnsafeList T} {l2 : UnsafeList T} {h2 : Heap T}
    (hinv : Inv ls h) (hi : ls[i]? = some li)
    (hop : ∀ psi, WF li h psi → ∃ ps2, OpOk h psi l2 h2 ps2) :
    Inv (ls.set i l2) h2 := by
  obtain ⟨pss, hlen, hwf, hdisj⟩ := hinv
  have hilt : i < ls.length := getElem?_some_lt hi
  have hiplt : i < pss.length := by omega
  have hpi : pss[i]? = some pss[i] := List.getElem?_eq_getElem hiplt
  have hwfi : WF li h pss[i] := hwf i li pss[i] hi hpi
  obtain ⟨ps2, ok⟩ := hop pss[i] hwfi
  have hboundother : ∀ k b, k ≠ i → pss[k]? = some b → ∀ q ∈ b,
      q < h.fresh ∧ q ∉ pss[i] := by
    intro k b hk hkps q hq
    have hklt : k < ls.length := by
      have := getElem?_some_lt hkps
      omega
    have hk2 : ls[k]? = some ls[k] := List.getElem?_eq_getElem hklt
    refine ⟨(hwf k ls[k] b hk2 hkps).bounded q hq, ?_⟩
    exact hdisj k i b pss[i] hk hkps hpi q hq
  refine ⟨pss.set i ps2, by simp [hlen], ?_, ?_⟩
  · intro k lk psk hk hpk
    by_cases hki : k = i
    · subst hki
      rw [List.getElem?_set_eq_of_lt l2 hilt] at hk
      rw [List.getElem?_set_eq_of_lt ps2 hiplt] at hpk
      cases hk
      cases hpk
      exact ok.wf
    · rw [List.getElem?_set_ne (fun he => hki he.symm)] at hk
      rw [List.getElem?_set_ne (fun he => hki he.symm)] at hpk
      refine (hwf k lk psk hk hpk).frameHeap ?_ ok.mono
      intro q hq
      obtain ⟨hqb, hqni⟩ := hboundother k psk hki hpk q hq
      exact ok.frame q hqni hqb
  · intro k m a b hkm hk hm p hp hpb
    by_cases hki : k = i
    · subst hki
      rw [List.getElem?_set_eq_of_lt ps2 hiplt] at hk
      cases hk
      rw [List.getElem?_set_ne hkm] at hm
      rcases ok.sub p hp with hmem | hge
      · exact hdisj k m pss[k] b hkm hpi hm p hmem hpb
      · obtain ⟨hqb, -⟩ := hboundother m b (fun he => hkm he.symm) hm p hpb
        omega
    · rw [List.getElem?_set_ne (fun he => hki he.symm)] at hk
      by_cases hmi : m = i
      · subst hmi
        rw [List.getElem?_set_eq_of_lt ps2 hiplt] at hm
        cases hm
        rcases ok.sub p hpb with hmem | hge
        · exact hdisj k m a pss[m] hkm hk hpi p hp hmem
        · obtain ⟨hqb, -⟩ := hboundother k a hki hk p hp
          omega
      · rw [List.getElem?_set_ne (fun he => hmi he.symm)] at hm
        exact hdisj k m a b hkm hk hm p hp hpb

theorem inv_append {ls : List (UnsafeList T)} {h : Heap T} {i j : Nat}
    {li lj : UnsafeList T} (hinv : Inv ls h) (hne : i ≠ j)
    (hi : ls[i]? = some li) (hj : ls[j]? = some lj) :
    Inv ((ls.set i (li.append lj h).1).set j (li.append lj h).2.1)
      (li.append lj h).2.2 := by
  obtain ⟨pss, hlen, hwf, hdisj⟩ := hinv
  have hilt : i < ls.length := getElem?_some_lt hi
  have hjlt : j < ls.length := getElem?_some_lt hj
  have hiplt : i < pss.length := by omega
  have hjplt : j < pss.length := by omega
  have hpi : pss[i]? = some pss[i] := List.getElem?_eq_getElem hiplt
  have hpj : pss[j]? = some pss[j] := List.getElem?_eq_getElem hjplt
  have wli : WF li h pss[i] := hwf i li pss[i] hi hpi
  have wlj : WF lj h pss[j] := hwf j lj pss[j] hj hpj
  have hdisj_ij : ∀ p ∈ pss[i], p ∉ pss[j] := hdisj i j pss[i] pss[j] hne hpi hpj
  obtain ⟨awf, ho2, hframe, hfr, -⟩ := append_ok wli wlj hdisj_ij
  have hbound : ∀ (k : Nat) (b : List Nat), pss[k]? = some b →
      ∀ q ∈ b, q < h.fresh := by
    intro k b hkps q hq
    have hklt : k < ls.length := by
      have := getElem?_some_lt hkps
      omega
    have hk2 : ls[k]? = some ls[k] := List.getElem?_eq_getElem hklt
    exact (hwf k ls[k] b hk2 hkps).bounded q hq
  refine ⟨(pss.set i (pss[i] ++ pss[j])).set j [], by simp [hlen], ?_, ?_⟩
  · intro k lk psk hk hpk
    by_cases hkj : k = j
    · subst hkj
      rw [List.getElem?_set_eq_of_lt _ (by simpa using hjlt)] at hk
      rw [List.getElem?_set_eq_of_lt _ (by simpa using hjplt)] at hpk
      cases hk
      cases hpk
      rw [ho2]
      exact new_wf _
    · rw [List.getElem?_set_ne (fun he => hkj he.symm)] at hk hpk
      by_cases hki : k = i
      · subst hki
        rw [List.getElem?_set_eq_of_lt _ hilt] at hk
        rw [List.getElem?_set_eq_of_lt _ hiplt] at hpk
        cases hk
        cases hpk
        exact awf
      · rw [List.getElem?_set_ne (fun he => hki he.symm)] at hk hpk
        refine (hwf k lk psk hk hpk).frameHeap ?_ (by rw [hfr])
        intro q hq
        have hqb := hbound k psk hpk q hq
        have hqni : q ∉ pss[i] := hdisj k i psk pss[i] hki hpk hpi q hq
        exact hframe q hqni hqb
  · intro k m a b hkm hk hm p hp hpb
    by_cases hkj : k = j
    · subst hkj
      rw [List.getElem?_set_eq_of_lt _ (by simpa using hjplt)] at hk
      cases hk
      exact List.not_mem_nil p hp
    · rw [List.getElem?_set_ne (fun he => hkj he.symm)] at hk
      by_cases hmj : m = j
      · subst hmj
        rw [List.getElem?_set_eq_of_lt _ (by simpa using hjplt)] at hm
        cases hm
        exact List.not_mem_nil p hpb
      · rw [List.getElem?_set_ne (fun he => hmj he.symm)] at hm
        by_cases hki : k = i
        · subst hki
          rw [List.getElem?_set_eq_of_lt _ hiplt] at hk
          cases hk
          rw [List.getElem?_set_ne hkm] at hm
          rcases List.mem_append.mp hp with hp2 | hp2
          · exact hdisj k m pss[k] b hkm hpi hm p hp2 hpb
          · exact hdisj j m pss[j] b (fun he => hmj he.symm) hpj hm p hp2 hpb
        · rw [List.getElem?_set_ne (fun he => hki he.symm)] at hk
          by_cases hmi : m = i
          · subst hmi
            rw [List.getElem?_set_eq_of_lt _ hiplt] at hm
            cases hm
            rcases List.mem_append.mp hpb with hp2 | hp2
            · exact hdisj k m a pss[m] hkm hk hpi p hp hp2
            · exact hdisj k j a pss[j] hkj hk hpj p hp hp2
          · rw [List.getElem?_set_ne (fun he => hmi he.symm)] at hm
            exact hdisj k m a b hkm hk hm p hp hpb

theorem inv_preserved {ls : List (UnsafeList T)} {h : Heap T}
    {ls2 : List (UnsafeList T)} {h2 : Heap T}
    (hinv : Inv ls h) (hs : Step ls h ls2 h2) : Inv ls2 h2 := by
  cases hs with
  | newOp =>
    exact inv_cons hinv
      ⟨new_wf h, fun _ _ _ => rfl, le_rfl, fun p hp => Or.inl hp⟩
  | fromVecOp v =>
    obtain ⟨ps2, ok, -⟩ := fromVec_ok v h
    exact inv_cons hinv ok
  | pushFrontOp i x li hi =>
    exact inv_set hinv hi fun psi w => ⟨h.fresh :: psi, (pushFront_ok w x).1⟩
  | pushBackOp i x li hi =>
    exact inv_set hinv hi fun psi w =>
      ⟨psi ++ [h.fresh], (pushBack_ok w x).1⟩
  | popFrontOp i li hi =>
    exact inv_set hinv hi fun psi w => ⟨psi.tail, (popFront_ok w).1⟩
  | reverseOp i li hi =>
    exact inv_set hinv hi fun psi w => ⟨psi.reverse, (reverse_ok w).1⟩
  | removeOp i idx li hi =>
    refine inv_set hinv hi fun psi w => ?_
    by_cases hidx : idx ≥ li.len
    · refine ⟨psi, ?_⟩
      rw [remove_out_of_range hidx]
      exact OpOk.refl w
    · exact ⟨psi.eraseIdx idx, (remove_range_ok w (by omega)).2.2.1⟩
  | appendOp i j li lj hne hi hj =>
    exact inv_append hinv hne hi hj

/-- Every reachable program state satisfies the invariant. -/
theorem reach_inv {ls : List (UnsafeList T)} {h : Heap T}
    (hr : Reach ls h) : Inv ls h := by
  induction hr with
  | init =>
    refine ⟨[], rfl, ?_, ?_⟩
    · intro i li psi h1 _
      simp at h1
    · intro i j a b _ h1 _
      simp at h1
  | step _ hs ih => exact inv_preserved ih hs

/-- Extract the representation facts for any single reachable list. -/
theorem reach_wf {ls : List (UnsafeList T)} {h : Heap T} {i : Nat}
    {l : UnsafeList T} (hr : Reach ls h) (hi : ls[i]? = some l) :
    ∃ ps, WF l h ps := by
  obtain ⟨pss, hlen, hwf, -⟩ := reach_inv hr
  have hilt : i < ls.length := getElem?_some_lt hi
  have hiplt : i < pss.length := by omega
  exact ⟨pss[i], hwf i l pss[i] hi (List.getElem?_eq_getElem hiplt)⟩

theorem iterList_chain {l : UnsafeList T} {h : Heap T} {ps : List Nat}
    (w : WF l h ps) : l.iterList h = chainValues h ps :=
  iter_chain w.chain l.len (by rw [w.lenEq])

theorem chain_mem_some {h : Heap T} {o r : Option Nat} {ps : List Nat}
    (hc : ChainSeg h o ps r) : ∀ p ∈ ps, (h.mem p).isSome := by
  induction hc with
  | nil => simp
  | cons hm _ ih =>
    intro q hq
    rcases List.mem_cons.mp hq with rfl | hq
    · rw [hm]
      rfl
    · exact ih q hq

/-! ## The claims -/

/-- C1.  In every reachable program state, every live chain satisfies: the
walk from `head` along `next` passes through a path `ps` of exactly `len`
pairwise-distinct addresses, each of them a live allocation, the walk ends
at the null pointer (so the last visited node's successor is `none`), and
`tail` is exactly the last address of the path. -/
theorem c1_reachable_chain_shape {T : Type} {ls : List (UnsafeList T)}
    {h : Heap T} {i : Nat} {l : UnsafeList T}
    (hr : Reach ls h) (hi : ls[i]? = some l) :
    ∃ ps : List Nat,
      ChainSeg h l.head ps none ∧
      ps.length = l.len ∧
      ps.Nodup ∧
      (∀ p ∈ ps, (h.mem p).isSome) ∧
      l.tail = ps.getLast? ∧
      (∀ t, ps.getLast? = some t →
        ∃ nd : Node T, h.mem t = some nd ∧ nd.next = none) := by
  obtain ⟨ps, w⟩ := reach_wf hr hi
  exact ⟨ps, w.chain, w.lenEq, w.nodup, chain_mem_some w.chain, w.tailEq,
    fun t ht => chain_getLast w.chain ht⟩

/-- C1 witness: the state reached by `new()` then `push_front(5)`. -/
theorem c1_witness :
    ∃ ps : List Nat,
      ChainSeg
        ((UnsafeList.new Nat).pushFront (Heap.empty Nat) 5).2
        (((UnsafeList.new Nat).pushFront (Heap.empty Nat) 5).1).head ps
        none ∧
      ps.length =
        (((UnsafeList.new Nat).pushFront (Heap.empty Nat) 5).1).len ∧
      ps.Nodup ∧
      (∀ p ∈ ps,
        ((((UnsafeList.new Nat).pushFront (Heap.empty Nat) 5).2).mem
          p).isSome) ∧
      (((UnsafeList.new Nat).pushFront (Heap.empty Nat) 5).1).tail =
        ps.getLast? ∧
      (∀ t, ps.getLast? = some t →
        ∃ nd : Node Nat,
          (((UnsafeList.new Nat).pushFront (Heap.empty Nat) 5).2).mem t =
            some nd ∧ nd.next = none) := by
  have hstep1 : Reach [UnsafeList.new Nat] (Heap.empty Nat) :=
    Reach.step Reach.init Step.newOp
  have hstep2 : Reach
      [((UnsafeList.new Nat).pushFront (Heap.empty Nat) 5).1]
      ((UnsafeList.new Nat).pushFront (Heap.empty Nat) 5).2 :=
    Reach.step hstep1
      (Step.pushFrontOp 0 5 (UnsafeList.new Nat) rfl)
  exact c1_reachable_chain_shape hstep2 List.getElem?_cons_zero

/-- C2.  In every reachable program state the three emptiness conditions of
a chain coincide (`head = none` iff `len = 0` iff `tail = none`); moreover
popping the sole remaining element clears `tail`, and removing the sole
remaining element (index 0) clears both `head` and `tail`. -/
theorem c2_emptiness_coincide {T : Type} {ls : List (UnsafeList T)}
    {h : Heap T} {i : Nat} {l : UnsafeList T}
    (hr : Reach ls h) (hi : ls[i]? = some l) :
    ((l.head = none ↔ l.len = 0) ∧ (l.tail = none ↔ l.len = 0)) ∧
    (l.len = 1 →
      (l.popFront h).2.1.tail = none ∧
      (l.remove h 0).2.1.head = none ∧
      (l.remove h 0).2.1.tail = none) := by
  obtain ⟨ps, w⟩ := reach_wf hr hi
  constructor
  · cases ps with
    | nil =>
      have hh : l.head = none := w.headEq
      have ht : l.tail = none := w.tailEq
      have hl : l.len = 0 := w.lenEq.symm
      rw [hh, ht, hl]
      simp
    | cons p ps2 =>
      have hh : l.head = some p := w.headEq
      have hl : l.len = ps2.length + 1 := by
        rw [← w.lenEq]
        rfl
      have ht : l.tail ≠ none := by
        rw [w.tailEq]
        intro he
        have := List.getLast?_eq_none_iff.mp he
        exact List.noConfusion this
      constructor
      · rw [hh, hl]
        simp
      · rw [hl]
        simp only [Nat.succ_ne_zero, iff_false]
        exact ht
  · intro hone
    obtain ⟨cok, -, -⟩ := popFront_ok w
    have hps : ps.tail = [] := by
      have := w.lenEq
      rw [hone] at this
      cases ps with
      | nil => rfl
      | cons p ps2 =>
        simp at this
        simp [this]
    rw [hps] at cok
    have hpop_tail : (l.popFront h).2.1.tail = none := cok.wf.tailEq
    have hred : l.remove h 0 = l.popFront h := by
      rw [UnsafeList.remove, if_neg (by omega), if_pos rfl]
    refine ⟨hpop_tail, ?_, ?_⟩
    · rw [hred]
      exact cok.wf.headEq
    · rw [hred]
      exact hpop_tail

/-- C2 witness: the state reached by `new()` then `push_back(7)`, a chain
of length 1. -/
theorem c2_witness :
    ((((UnsafeList.new Nat).pushBack (Heap.empty Nat) 7).1.head = none ↔
        ((UnsafeList.new Nat).pushBack (Heap.empty Nat) 7).1.len = 0) ∧
      (((UnsafeList.new Nat).pushBack (Heap.empty Nat) 7).1.tail = none ↔
        ((UnsafeList.new Nat).pushBack (Heap.empty Nat) 7).1.len = 0)) ∧
    (((UnsafeList.new Nat).pushBack (Heap.empty Nat) 7).1.len = 1 →
      (((UnsafeList.new Nat).pushBack (Heap.empty Nat) 7).1.popFront
        ((UnsafeList.new Nat).pushBack (Heap.empty Nat) 7).2).2.1.tail =
        none ∧
      (((UnsafeList.new Nat).pushBack (Heap.empty Nat) 7).1.remove
        ((UnsafeList.new Nat).pushBack (Heap.empty Nat) 7).2 0).2.1.head =
        none ∧
      (((UnsafeList.new Nat).pushBack (Heap.empty Nat) 7).1.remove
        ((UnsafeList.new Nat).pushBack (Heap.empty Nat) 7).2 0).2.1.tail =
        none) := by
  have hstep1 : Reach [UnsafeList.new Nat] (Heap.empty Nat) :=
    Reach.step Reach.init Step.newOp
  have hstep2 : Reach
      [((UnsafeList.new Nat).pushBack (Heap.empty Nat) 7).1]
      ((UnsafeList.new Nat).pushBack (Heap.empty Nat) 7).2 :=
    Reach.step hstep1 (Step.pushBackOp 0 7 (UnsafeList.new Nat) rfl)
  exact c2_emptiness_coincide hstep2 List.getElem?_cons_zero

/-- C5.  `remove` with an out-of-range index returns `none` and returns the
chain and the heap entirely unchanged (same fields, same node identities);
`pop_front`, `peek_front` and `peek_front_mut` on an empty chain return
`none` without touching anything.  All of these are ordinary returned
values, not a panic path. -/
theorem c5_absence_not_failure {T : Type} (l : UnsafeList T) (h : Heap T)
    (i : Nat) :
    (i ≥ l.len → l.remove h i = (none, l, h)) ∧
    (l.head = none →
      l.popFront h = (none, l, h) ∧
      l.peekFront h = none ∧
      l.peekFrontMut h = none) := by
  refine ⟨fun hge => remove_out_of_range hge, fun hh => front_ops_empty hh⟩

/-- C5 witness: a chain of length 3 with index 7, and the empty chain. -/
theorem c5_witness :
    ((7 ≥ (UnsafeList.fromVec [10, 20, 30] (Heap.empty Nat)).1.len →
      (UnsafeList.fromVec [10, 20, 30] (Heap.empty Nat)).1.remove
        (UnsafeList.fromVec [10, 20, 30] (Heap.empty Nat)).2 7 =
        (none, (UnsafeList.fromVec [10, 20, 30] (Heap.empty Nat)).1,
          (UnsafeList.fromVec [10, 20, 30] (Heap.empty Nat)).2)) ∧
      ((UnsafeList.fromVec [10, 20, 30] (Heap.empty Nat)).1.head = none →
        (UnsafeList.fromVec [10, 20, 30] (Heap.empty Nat)).1.popFront
          (UnsafeList.fromVec [10, 20, 30] (Heap.empty Nat)).2 =
          (none, (UnsafeList.fromVec [10, 20, 30] (Heap.empty Nat)).1,
            (UnsafeList.fromVec [10, 20, 30] (Heap.empty Nat)).2) ∧
        (UnsafeList.fromVec [10, 20, 30] (Heap.empty Nat)).1.peekFront
          (UnsafeList.fromVec [10, 20, 30] (Heap.empty Nat)).2 = none ∧
        (UnsafeList.fromVec [10, 20, 30] (Heap.empty Nat)).1.peekFrontMut
          (UnsafeList.fromVec [10, 20, 30] (Heap.empty Nat)).2 = none)) ∧
    ((UnsafeList.new Nat).popFront (Heap.empty Nat) =
      (none, UnsafeList.new Nat, Heap.empty Nat) ∧
      (UnsafeList.new Nat).peekFront (Heap.empty Nat) = none ∧
      (UnsafeList.new Nat).peekFrontMut (Heap.empty Nat) = none) := by
  refine ⟨c5_absence_not_failure _ _ 7, ?_⟩
  exact (c5_absence_not_failure (UnsafeList.new Nat) (Heap.empty Nat) 0).2
    rfl

/-- C7.  Building a chain from any finite sequence `v` and then performing
a full read-only iteration yields exactly `v`, and the chain's length
equals `v.length`. -/
theorem c7_fromVec_roundtrip {T : Type} (v : List T) (h : Heap T) :
    UnsafeList.iterList (UnsafeList.fromVec v h).1
      (UnsafeList.fromVec v h).2 = v ∧
    (UnsafeList.fromVec v h).1.len = v.length := by
  obtain ⟨ps2, ok, hv⟩ := fromVec_ok v h
  have hiter : UnsafeList.iterList (UnsafeList.fromVec v h).1
      (UnsafeList.fromVec v h).2 = chainValues (UnsafeList.fromVec v h).2
      ps2 := by
    refine iter_chain ok.wf.chain _ ?_
    rw [ok.wf.lenEq]
  refine ⟨by rw [hiter, hv], ?_⟩
  have hlen1 : (chainValues (UnsafeList.fromVec v h).2 ps2).length =
      ps2.length := chain_values_length ok.wf.chain
  rw [hv] at hlen1
  rw [← ok.wf.lenEq, ← hlen1]

/-- A concrete well-formed chain for witnesses: `from(vec![10, 20, 30])`
built in the empty heap occupies addresses 0, 1, 2. -/
theorem sample_wf :
    WF (UnsafeList.fromVec [10, 20, 30] (Heap.empty Nat)).1
      (UnsafeList.fromVec [10, 20, 30] (Heap.empty Nat)).2 [0, 1, 2] := by
  have h0 : ((UnsafeList.fromVec [10, 20, 30] (Heap.empty Nat)).2).mem 0 =
      some ⟨10, some 1⟩ := by decide
  have h1 : ((UnsafeList.fromVec [10, 20, 30] (Heap.empty Nat)).2).mem 1 =
      some ⟨20, some 2⟩ := by decide
  have h2 : ((UnsafeList.fromVec [10, 20, 30] (Heap.empty Nat)).2).mem 2 =
      some ⟨30, none⟩ := by decide
  have hh : (UnsafeList.fromVec [10, 20, 30] (Heap.empty Nat)).1.head =
      some 0 := by decide
  refine ⟨?_, by decide, by decide, by decide⟩
  rw [hh]
  exact ChainSeg.cons h0 (ChainSeg.cons h1 (ChainSeg.cons h2
    (ChainSeg.nil none)))

/-- C3.  Appending `other` onto `self` produces the former contents of
`self` followed by the former contents of `other`, with the lengths added;
`other` is handed back as a freshly emptied chain and destroying it (the
`Drop` impl, i.e. `clear`) releases no node: the heap is untouched. -/
theorem c3_append_spec {T : Type} {l o : UnsafeList T} {h : Heap T}
    {ps qs : List Nat} (wl : WF l h ps) (wo : WF o h qs)
    (hdisj : ∀ p ∈ ps, p ∉ qs) :
    (l.append o h).1.len = l.len + o.len ∧
    UnsafeList.iterList (l.append o h).1 (l.append o h).2.2 =
      UnsafeList.iterList l h ++ UnsafeList.iterList o h ∧
    (l.append o h).2.1 = UnsafeList.new T ∧
    ((l.append o h).2.1).clear (l.append o h).2.2 =
      ((l.append o h).2.1, (l.append o h).2.2) := by
  obtain ⟨awf, ho2, -, -, hvals⟩ := append_ok wl wo hdisj
  have hlen : (l.append o h).1.len = l.len + o.len := by
    rw [← awf.lenEq, List.length_append, wl.lenEq, wo.lenEq]
  refine ⟨hlen, ?_, ho2, ?_⟩
  · rw [iterList_chain awf, hvals, iterList_chain wl, iterList_chain wo]
  · rw [ho2]
    exact clear_new _

/-- C3 witness: `from(vec![10,20,30])` appended with `from(vec![7])`, both
built in one heap (`other` occupies address 3). -/
theorem c3_witness :
    ((UnsafeList.fromVec [10, 20, 30] (Heap.empty Nat)).1.append
        (UnsafeList.fromVec [7]
          (UnsafeList.fromVec [10, 20, 30] (Heap.empty Nat)).2).1
        (UnsafeList.fromVec [7]
          (UnsafeList.fromVec [10, 20, 30] (Heap.empty Nat)).2).2).1.len =
      (UnsafeList.fromVec [10, 20, 30] (Heap.empty Nat)).1.len +
        (UnsafeList.fromVec [7]
          (UnsafeList.fromVec [10, 20, 30] (Heap.empty Nat)).2).1.len ∧
    UnsafeList.iterList
        ((UnsafeList.fromVec [10, 20, 30] (Heap.empty Nat)).1.append
          (UnsafeList.fromVec [7]
            (UnsafeList.fromVec [10, 20, 30] (Heap.empty Nat)).2).1
          (UnsafeList.fromVec [7]
            (UnsafeList.fromVec [10, 20, 30] (Heap.empty Nat)).2).2).1
        ((UnsafeList.fromVec [10, 20, 30] (Heap.empty Nat)).1.append
          (UnsafeList.fromVec [7]
            (UnsafeList.fromVec [10, 20, 30] (Heap.empty Nat)).2).1
          (UnsafeList.fromVec [7]
            (UnsafeList.fromVec [10, 20, 30] (Heap.empty Nat)).2).2).2.2 =
      UnsafeList.iterList (UnsafeList.fromVec [10, 20, 30] (Heap.empty Nat)).1
        (UnsafeList.fromVec [7]
          (UnsafeList.fromVec [10, 20, 30] (Heap.empty Nat)).2).2 ++
      UnsafeList.iterList
        (UnsafeList.fromVec [7]
          (UnsafeList.fromVec [10, 20, 30] (Heap.empty Nat)).2).1
        (UnsafeList.fromVec [7]
          (UnsafeList.fromVec [10, 20, 30] (Heap.empty Nat)).2).2 ∧
    ((UnsafeList.fromVec [10, 20, 30] (Heap.empty Nat)).1.append
        (UnsafeList.fromVec [7]
          (UnsafeList.fromVec [10, 20, 30] (Heap.empty Nat)).2).1
        (UnsafeList.fromVec [7]
          (UnsafeList.fromVec [10, 20, 30] (Heap.empty Nat)).2).2).2.1 =
      UnsafeList.new Nat ∧
    (((UnsafeList.fromVec [10, 20, 30] (Heap.empty Nat)).1.append
        (UnsafeList.fromVec [7]
          (UnsafeList.fromVec [10, 20, 30] (Heap.empty Nat)).2).1
        (UnsafeList.fromVec [7]
          (UnsafeList.fromVec [10, 20, 30] (Heap.empty Nat)).2).2).2.1).clear
      ((UnsafeList.fromVec [10, 20, 30] (Heap.empty Nat)).1.append
        (UnsafeList.fromVec [7]
          (UnsafeList.fromVec [10, 20, 30] (Heap.empty Nat)).2).1
        (UnsafeList.fromVec [7]
          (UnsafeList.fromVec [10, 20, 30] (Heap.empty Nat)).2).2).2.2 =
      (((UnsafeList.fromVec [10, 20, 30] (Heap.empty Nat)).1.append
        (UnsafeList.fromVec [7]
          (UnsafeList.fromVec [10, 20, 30] (Heap.empty Nat)).2).1
        (UnsafeList.fromVec [7]
          (UnsafeList.fromVec [10, 20, 30] (Heap.empty Nat)).2).2).2.1,
      ((UnsafeList.fromVec [10, 20, 30] (Heap.empty Nat)).1.append
        (UnsafeList.fromVec [7]
          (UnsafeList.fromVec [10, 20, 30] (Heap.empty Nat)).2).1
        (UnsafeList.fromVec [7]
          (UnsafeList.fromVec [10, 20, 30] (Heap.empty Nat)).2).2).2.2) := by
  have wl2 : WF (UnsafeList.fromVec [10, 20, 30] (Heap.empty Nat)).1
      (UnsafeList.fromVec [7]
        (UnsafeList.fromVec [10, 20, 30] (Heap.empty Nat)).2).2
      [0, 1, 2] := by
    refine sample_wf.frameHeap ?_ (by decide)
    intro q hq
    fin_cases hq <;> decide
  have wo2 : WF (UnsafeList.fromVec [7]
        (UnsafeList.fromVec [10, 20, 30] (Heap.empty Nat)).2).1
      (UnsafeList.fromVec [7]
        (UnsafeList.fromVec [10, 20, 30] (Heap.empty Nat)).2).2 [3] := by
    have h3 : ((UnsafeList.fromVec [7]
        (UnsafeList.fromVec [10, 20, 30] (Heap.empty Nat)).2).2).mem 3 =
        some ⟨7, none⟩ := by decide
    have hh : (UnsafeList.fromVec [7]
        (UnsafeList.fromVec [10, 20, 30] (Heap.empty Nat)).2).1.head =
        some 3 := by decide
    refine ⟨?_, by decide, by decide, by decide⟩
    rw [hh]
    exact ChainSeg.cons h3 (ChainSeg.nil none)
  exact c3_append_spec wl2 wo2 (by decide)

/-- C4.  For `0 ≤ i < len`, `remove(i)` returns the element at position `i`
of the iteration, decrements the length by one, leaves the remaining
iteration equal to the original with position `i` deleted, and if the
removed node was the tail, `tail` becomes the predecessor (the last address
of the first `i` path entries). -/
theorem c4_remove_in_range {T : Type} {l : UnsafeList T} {h : Heap T}
    {ps : List Nat} {i : Nat} (w : WF l h ps) (hlt : i < l.len) :
    (l.remove h i).1 = (UnsafeList.iterList l h)[i]? ∧
    (l.remove h i).2.1.len = l.len - 1 ∧
    UnsafeList.iterList (l.remove h i).2.1 (l.remove h i).2.2 =
      (UnsafeList.iterList l h).eraseIdx i ∧
    (i + 1 = l.len → (l.remove h i).2.1.tail = (ps.take i).getLast?) := by
  obtain ⟨cval, -, cok, cvals⟩ := remove_range_ok w hlt
  have hips : i < ps.length := by
    rw [w.lenEq]
    omega
  have hiterl : UnsafeList.iterList l h = chainValues h ps :=
    iterList_chain w
  have hlen2 : (ps.eraseIdx i).length = l.len - 1 := by
    rw [List.length_eraseIdx, if_pos hips, w.lenEq]
  refine ⟨by rw [cval, hiterl], ?_, ?_, ?_⟩
  · rw [← cok.wf.lenEq]
    exact hlen2
  · rw [iterList_chain cok.wf, cvals, hiterl]
  · intro hlast
    rw [cok.wf.tailEq, List.eraseIdx_eq_take_drop_succ]
    have hdrop : ps.drop (i + 1) = [] := by
      refine List.drop_eq_nil_of_le ?_
      rw [w.lenEq]
      omega
    rw [hdrop, List.append_nil]

/-- C4 witness: removing index 2 (the tail) of `from(vec![10, 20, 30])`. -/
theorem c4_witness :
    ((UnsafeList.fromVec [10, 20, 30] (Heap.empty Nat)).1.remove
        (UnsafeList.fromVec [10, 20, 30] (Heap.empty Nat)).2 2).1 =
      (UnsafeList.iterList
        (UnsafeList.fromVec [10, 20, 30] (Heap.empty Nat)).1
        (UnsafeList.fromVec [10, 20, 30] (Heap.empty Nat)).2)[2]? ∧
    ((UnsafeList.fromVec [10, 20, 30] (Heap.empty Nat)).1.remove
        (UnsafeList.fromVec [10, 20, 30] (Heap.empty Nat)).2 2).2.1.len =
      (UnsafeList.fromVec [10, 20, 30] (Heap.empty Nat)).1.len - 1 ∧
    UnsafeList.iterList
        ((UnsafeList.fromVec [10, 20, 30] (Heap.empty Nat)).1.remove
          (UnsafeList.fromVec [10, 20, 30] (Heap.empty Nat)).2 2).2.1
        ((UnsafeList.fromVec [10, 20, 30] (Heap.empty Nat)).1.remove
          (UnsafeList.fromVec [10, 20, 30] (Heap.empty Nat)).2 2).2.2 =
      (UnsafeList.iterList
        (UnsafeList.fromVec [10, 20, 30] (Heap.empty Nat)).1
        (UnsafeList.fromVec [10, 20, 30] (Heap.empty Nat)).2).eraseIdx 2 ∧
    (2 + 1 = (UnsafeList.fromVec [10, 20, 30] (Heap.empty Nat)).1.len →
      ((UnsafeList.fromVec [10, 20, 30] (Heap.empty Nat)).1.remove
        (UnsafeList.fromVec [10, 20, 30] (Heap.empty Nat)).2 2).2.1.tail =
      (([0, 1, 2] : List Nat).take 2).getLast?) :=
  c4_remove_in_range sample_wf (by decide)

theorem isSome_congr_value {a b : Option (Node T)}
    (h : a.map Node.value = b.map Node.value) : a.isSome = b.isSome := by
  cases a <;> cases b <;> simp_all

/-- C6.  `reverse` keeps the length, swaps `head` and `tail`, reverses the
iteration order exactly, and applying it twice restores the chain (same
fields, same iteration order).  No node is allocated or released: the
allocation counter and the liveness and stored value of every address are
untouched, only successor fields are rewritten. -/
theorem c6_reverse_involution {T : Type} {l : UnsafeList T} {h : Heap T}
    {ps : List Nat} (w : WF l h ps) :
    (l.reverse h).1.len = l.len ∧
    (l.reverse h).1.head = l.tail ∧
    (l.reverse h).1.tail = l.head ∧
    UnsafeList.iterList (l.reverse h).1 (l.reverse h).2 =
      (UnsafeList.iterList l h).reverse ∧
    ((l.reverse h).1.reverse (l.reverse h).2).1 = l ∧
    UnsafeList.iterList ((l.reverse h).1.reverse (l.reverse h).2).1
      ((l.reverse h).1.reverse (l.reverse h).2).2 =
      UnsafeList.iterList l h ∧
    (l.reverse h).2.fresh = h.fresh ∧
    (∀ q, ((l.reverse h).2.mem q).map Node.value =
      (h.mem q).map Node.value) ∧
    (∀ q, ((l.reverse h).2.mem q).isSome = (h.mem q).isSome) := by
  obtain ⟨ok, hframe, hfr, hvalpt, hvals⟩ := reverse_ok w
  have hvalall : ∀ q, ((l.reverse h).2.mem q).map Node.value =
      (h.mem q).map Node.value := by
    intro q
    by_cases hq : q ∈ ps
    · exact hvalpt q hq
    · rw [hframe q hq]
  obtain ⟨ok2, -, -, -, hvals2⟩ := reverse_ok ok.wf
  have hl3 : ((l.reverse h).1.reverse (l.reverse h).2).1 = l := by
    cases l
    rfl
  refine ⟨rfl, rfl, rfl, ?_, hl3, ?_, hfr, hvalall,
    fun q => isSome_congr_value (hvalall q)⟩
  · rw [iterList_chain ok.wf, hvals, iterList_chain w]
  · rw [iterList_chain ok2.wf, hvals2, hvals, List.reverse_reverse,
      iterList_chain w]

/-- C6 witness: reversing `from(vec![10, 20, 30])`. -/
theorem c6_witness :
    ((UnsafeList.fromVec [10, 20, 30] (Heap.empty Nat)).1.reverse
        (UnsafeList.fromVec [10, 20, 30] (Heap.empty Nat)).2).1.len =
      (UnsafeList.fromVec [10, 20, 30] (Heap.empty Nat)).1.len ∧
    ((UnsafeList.fromVec [10, 20, 30] (Heap.empty Nat)).1.reverse
        (UnsafeList.fromVec [10, 20, 30] (Heap.empty Nat)).2).1.head =
      (UnsafeList.fromVec [10, 20, 30] (Heap.empty Nat)).1.tail ∧
    ((UnsafeList.fromVec [10, 20, 30] (Heap.empty Nat)).1.reverse
        (UnsafeList.fromVec [10, 20, 30] (Heap.empty Nat)).2).1.tail =
      (UnsafeList.fromVec [10, 20, 30] (Heap.empty Nat)).1.head ∧
    UnsafeList.iterList
        ((UnsafeList.fromVec [10, 20, 30] (Heap.empty Nat)).1.reverse
          (UnsafeList.fromVec [10, 20, 30] (Heap.empty Nat)).2).1
        ((UnsafeList.fromVec [10, 20, 30] (Heap.empty Nat)).1.reverse
          (UnsafeList.fromVec [10, 20, 30] (Heap.empty Nat)).2).2 =
      (UnsafeList.iterList
        (UnsafeList.fromVec [10, 20, 30] (Heap.empty Nat)).1
        (UnsafeList.fromVec [10, 20, 30] (Heap.empty Nat)).2).reverse ∧
    (((UnsafeList.fromVec [10, 20, 30] (Heap.empty Nat)).1.reverse
        (UnsafeList.fromVec [10, 20, 30] (Heap.empty Nat)).2).1.reverse
      ((UnsafeList.fromVec [10, 20, 30] (Heap.empty Nat)).1.reverse
        (UnsafeList.fromVec [10, 20, 30] (Heap.empty Nat)).2).2).1 =
      (UnsafeList.fromVec [10, 20, 30] (Heap.empty Nat)).1 ∧
    UnsafeList.iterList
        (((UnsafeList.fromVec [10, 20, 30] (Heap.empty Nat)).1.reverse
          (UnsafeList.fromVec [10, 20, 30] (Heap.empty Nat)).2).1.reverse
        ((UnsafeList.fromVec [10, 20, 30] (Heap.empty Nat)).1.reverse
          (UnsafeList.fromVec [10, 20, 30] (Heap.empty Nat)).2).2).1
        (((UnsafeList.fromVec [10, 20, 30] (Heap.empty Nat)).1.reverse
          (UnsafeList.fromVec [10, 20, 30] (Heap.empty Nat)).2).1.reverse
        ((UnsafeList.fromVec [10, 20, 30] (Heap.empty Nat)).1.reverse
          (UnsafeList.fromVec [10, 20, 30] (Heap.empty Nat)).2).2).2 =
      UnsafeList.iterList
        (UnsafeList.fromVec [10, 20, 30] (Heap.empty Nat)).1
        (UnsafeList.fromVec [10, 20, 30] (Heap.empty Nat)).2 ∧
    ((UnsafeList.fromVec [10, 20, 30] (Heap.empty Nat)).1.reverse
        (UnsafeList.fromVec [10, 20, 30] (Heap.empty Nat)).2).2.fresh =
      (UnsafeList.fromVec [10, 20, 30] (Heap.empty Nat)).2.fresh ∧
    (∀ q, (((UnsafeList.fromVec [10, 20, 30] (Heap.empty Nat)).1.reverse
        (UnsafeList.fromVec [10, 20, 30] (Heap.empty Nat)).2).2.mem q).map
          Node.value =
      ((UnsafeList.fromVec [10, 20, 30] (Heap.empty Nat)).2.mem q).map
        Node.value) ∧
    (∀ q, (((UnsafeList.fromVec [10, 20, 30] (Heap.empty Nat)).1.reverse
        (UnsafeList.fromVec [10, 20, 30] (Heap.empty Nat)).2).2.mem
          q).isSome =
      ((UnsafeList.fromVec [10, 20, 30] (Heap.empty Nat)).2.mem
        q).isSome) :=
  c6_reverse_involution sample_wf

/-- C8.  `push_front(x)` then `pop_front()` returns `x` and leaves the
chain structurally identical: the same record and the same iteration
order as before the push. -/
theorem c8_push_then_pop {T : Type} {l : UnsafeList T} {h : Heap T}
    {ps : List Nat} (w : WF l h ps) (x : T) :
    ((l.pushFront h x).1.popFront (l.pushFront h x).2).1 = some x ∧
    ((l.pushFront h x).1.popFront (l.pushFront h x).2).2.1 = l ∧
    UnsafeList.iterList
        ((l.pushFront h x).1.popFront (l.pushFront h x).2).2.1
        ((l.pushFront h x).1.popFront (l.pushFront h x).2).2.2 =
      UnsafeList.iterList l h := by
  obtain ⟨op1, vals1⟩ := pushFront_ok w x
  obtain ⟨cok, cval, cvals⟩ := popFront_ok op1.wf
  have hwf2 : WF ((l.pushFront h x).1.popFront (l.pushFront h x).2).2.1
      ((l.pushFront h x).1.popFront (l.pushFront h x).2).2.2 ps := cok.wf
  have hr : ((l.pushFront h x).1.popFront (l.pushFront h x).2).1 =
      some x := by
    rw [cval, vals1]
    rfl
  have hfields1 :
      ((l.pushFront h x).1.popFront (l.pushFront h x).2).2.1.head =
      l.head := by
    rw [hwf2.headEq, ← w.headEq]
  have hfields2 :
      ((l.pushFront h x).1.popFront (l.pushFront h x).2).2.1.tail =
      l.tail := by
    rw [hwf2.tailEq, ← w.tailEq]
  have hfields3 :
      ((l.pushFront h x).1.popFront (l.pushFront h x).2).2.1.len =
      l.len := by
    rw [← hwf2.lenEq, w.lenEq]
  have hsame : ((l.pushFront h x).1.popFront (l.pushFront h x).2).2.1 =
      l := by
    have : ((l.pushFront h x).1.popFront (l.pushFront h x).2).2.1 =
        (⟨l.head, l.tail, l.len⟩ : UnsafeList T) := by
      rw [← hfields1, ← hfields2, ← hfields3]
    rw [this]
  refine ⟨hr, hsame, ?_⟩
  have cvals2 : chainValues
      ((l.pushFront h x).1.popFront (l.pushFront h x).2).2.2 ps =
      (chainValues (l.pushFront h x).2 (h.fresh :: ps)).tail := cvals
  rw [iterList_chain hwf2, cvals2, vals1, iterList_chain w]
  rfl

/-- C8 witness: pushing 99 onto `from(vec![10, 20, 30])` and popping. -/
theorem c8_witness :
    (((UnsafeList.fromVec [10, 20, 30] (Heap.empty Nat)).1.pushFront
        (UnsafeList.fromVec [10, 20, 30] (Heap.empty Nat)).2 99).1.popFront
      ((UnsafeList.fromVec [10, 20, 30] (Heap.empty Nat)).1.pushFront
        (UnsafeList.fromVec [10, 20, 30] (Heap.empty Nat)).2 99).2).1 =
      some 99 ∧
    (((UnsafeList.fromVec [10, 20, 30] (Heap.empty Nat)).1.pushFront
        (UnsafeList.fromVec [10, 20, 30] (Heap.empty Nat)).2 99).1.popFront
      ((UnsafeList.fromVec [10, 20, 30] (Heap.empty Nat)).1.pushFront
        (UnsafeList.fromVec [10, 20, 30] (Heap.empty Nat)).2 99).2).2.1 =
      (UnsafeList.fromVec [10, 20, 30] (Heap.empty Nat)).1 ∧
    UnsafeList.iterList
        ((((UnsafeList.fromVec [10, 20, 30] (Heap.empty Nat)).1.pushFront
          (UnsafeList.fromVec [10, 20, 30] (Heap.empty Nat)).2 99).1.popFront
        ((UnsafeList.fromVec [10, 20, 30] (Heap.empty Nat)).1.pushFront
          (UnsafeList.fromVec [10, 20, 30] (Heap.empty Nat)).2 99).2)).2.1
        ((((UnsafeList.fromVec [10, 20, 30] (Heap.empty Nat)).1.pushFront
          (UnsafeList.fromVec [10, 20, 30] (Heap.empty Nat)).2 99).1.popFront
        ((UnsafeList.fromVec [10, 20, 30] (Heap.empty Nat)).1.pushFront
          (UnsafeList.fromVec [10, 20, 30] (Heap.empty Nat)).2 99).2)).2.2 =
      UnsafeList.iterList
        (UnsafeList.fromVec [10, 20, 30] (Heap.empty Nat)).1
        (UnsafeList.fromVec [10, 20, 30] (Heap.empty Nat)).2 :=
  c8_push_then_pop sample_wf 99

/-- C10.  For `1 ≤ index < len` the predecessor walk of `remove` always
ends with both a predecessor and a target pointer present, so the trailing
`else { None }` fallback is unreachable: `remove` never returns `none` for
an in-range index. -/
theorem c10_walk_total {T : Type} {l : UnsafeList T} {h : Heap T}
    {ps : List Nat} {i : Nat} (w : WF l h ps) (hge : 1 ≤ i)
    (hlt : i < l.len) :
    (∃ pp cp, UnsafeList.removeWalk i h none l.head =
      (some pp, some cp)) ∧
    (l.remove h i).1.isSome := by
  obtain ⟨hwalk, -, hsome, -, -⟩ := remove_pos_ok w hge hlt
  exact ⟨hwalk, hsome⟩

/-- C10 witness: the walk for `remove(1)` on `from(vec![10, 20, 30])`. -/
theorem c10_witness :
    (∃ pp cp, UnsafeList.removeWalk 1
        (UnsafeList.fromVec [10, 20, 30] (Heap.empty Nat)).2 none
        (UnsafeList.fromVec [10, 20, 30] (Heap.empty Nat)).1.head =
      (some pp, some cp)) ∧
    ((UnsafeList.fromVec [10, 20, 30] (Heap.empty Nat)).1.remove
      (UnsafeList.fromVec [10, 20, 30] (Heap.empty Nat)).2 1).1.isSome :=
  c10_walk_total sample_wf (by decide) (by decide)

/-- The invariant carried along any run of stack-like operations: the list
stays well formed and its length plus the number of successful pops equals
the number of pushes. -/
theorem runOps_invariant {T : Type} :
    ∀ (ops : List (SeqOp T)) (l : UnsafeList T) (h : Heap T)
      (np nq : Nat) (ps : List Nat), WF l h ps → l.len + nq = np →
      ∃ ps2,
        WF (runOps ops (l, h, np, nq)).1 (runOps ops (l, h, np, nq)).2.1
          ps2 ∧
        (runOps ops (l, h, np, nq)).1.len +
            (runOps ops (l, h, np, nq)).2.2.2 =
          (runOps ops (l, h, np, nq)).2.2.1 := by
  intro ops
  induction ops with
  | nil =>
    intro l h np nq ps w hcount
    exact ⟨ps, w, hcount⟩
  | cons op rest ih =>
    intro l h np nq ps w hcount
    cases op with
    | pushF x =>
      obtain ⟨ok, -⟩ := pushFront_ok w x
      have hred : runOps (SeqOp.pushF x :: rest) (l, h, np, nq) =
          runOps rest ((l.pushFront h x).1, (l.pushFront h x).2,
            np + 1, nq) := rfl
      rw [hred]
      refine ih _ _ _ _ _ ok.wf ?_
      have hl : (l.pushFront h x).1.len = l.len + 1 := rfl
      omega
    | pushB x =>
      obtain ⟨ok, -⟩ := pushBack_ok w x
      have hred : runOps (SeqOp.pushB x :: rest) (l, h, np, nq) =
          runOps rest ((l.pushBack h x).1, (l.pushBack h x).2,
            np + 1, nq) := rfl
      rw [hred]
      refine ih _ _ _ _ _ ok.wf ?_
      have hl : (l.pushBack h x).1.len = l.len + 1 := by
        rw [← ok.wf.lenEq]
        simp [w.lenEq]
      omega
    | popF =>
      obtain ⟨cok, cval, -⟩ := popFront_ok w
      cases ps with
      | nil =>
        have hh : l.head = none := w.headEq
        have hred : runOps (SeqOp.popF :: rest) (l, h, np, nq) =
            runOps rest (l, h, np, nq) := by
          show (match l.popFront h with
            | (none, l1, h1) => runOps rest (l1, h1, np, nq)
            | (some _, l1, h1) => runOps rest (l1, h1, np, nq + 1)) = _
          rw [(front_ops_empty hh).1]
        rw [hred]
        exact ih _ _ _ _ _ w hcount
      | cons p ps2 =>
        have hh : l.head = some p := w.headEq
        have hc := w.chain
        rw [hh] at hc
        cases hc with
        | cons hm hrest =>
          rename_i nd
          have hv : (l.popFront h).1 = some nd.value := by
            rw [cval, chainValues_cons hm]
            rfl
          have hpf : l.popFront h =
              (some nd.value, (l.popFront h).2.1, (l.popFront h).2.2) := by
            rw [← hv]
          have hred : runOps (SeqOp.popF :: rest) (l, h, np, nq) =
              runOps rest ((l.popFront h).2.1, (l.popFront h).2.2,
                np, nq + 1) := by
            show (match l.popFront h with
              | (none, l1, h1) => runOps rest (l1, h1, np, nq)
              | (some _, l1, h1) => runOps rest (l1, h1, np, nq + 1)) = _
            rw [hpf]
          rw [hred]
          refine ih _ _ _ _ _ cok.wf ?_
          have hl1 : ps2.length = (l.popFront h).2.1.len := cok.wf.lenEq
          have hl2 : ps2.length + 1 = l.len := by
            rw [← w.lenEq]
            rfl
          omega

/-- C9.  For any sequence of `push_front` / `push_back` / `pop_front`
operations run from an empty chain, `len()` equals the number of elements
pushed minus the number of successful pops, and also equals the number of
items a full consuming iteration yields. -/
theorem c9_len_counts {T : Type} (ops : List (SeqOp T)) :
    (runOps ops (UnsafeList.new T, Heap.empty T, 0, 0)).1.len +
        (runOps ops (UnsafeList.new T, Heap.empty T, 0, 0)).2.2.2 =
      (runOps ops (UnsafeList.new T, Heap.empty T, 0, 0)).2.2.1 ∧
    (UnsafeList.intoIterFuel
        (runOps ops (UnsafeList.new T, Heap.empty T, 0, 0)).1.len
        (runOps ops (UnsafeList.new T, Heap.empty T, 0, 0)).1
        (runOps ops (UnsafeList.new T, Heap.empty T, 0, 0)).2.1).length =
      (runOps ops (UnsafeList.new T, Heap.empty T, 0, 0)).1.len := by
  obtain ⟨ps2, wf2, hcount⟩ := runOps_invariant ops (UnsafeList.new T)
    (Heap.empty T) 0 0 [] (new_wf _) rfl
  refine ⟨hcount, ?_⟩
  rw [intoIter_spec ps2 _ _ wf2 _ (le_of_eq wf2.lenEq),
    chain_values_length wf2.chain, wf2.lenEq]

end RustList
